import Mathlib

/-!
Verification development for the credential-protection subsystem of the
playwright-scalable-orangehrm-framework repository (TypeScript).

The TypeScript sources are shallowly embedded here:
* JS strings are represented as `List Char` (`JStr`);
* JS `Record<string, string>` objects are represented as insertion-ordered
  association lists with unique keys (`recordSet` models property assignment);
* fallible code returns `Except JsError`;
* the external collaborators (node `crypto`, `argon2`, `TextEncoder` /
  `TextDecoder`, Web Crypto AES-GCM) are abstract components bundled in
  `CryptoPrimitives`, constrained only by their documented behaviour;
* `JSON.parse` / `JSON.stringify` and `Buffer` base64 conversion are modelled
  concretely and executably below.
-/

/-- JS strings, modelled as lists of unicode characters. -/
abbrev JStr := List Char

/-- The error kinds that the embedded code can raise. -/
inductive JsError where
  | invalidParameter
  | rangeError
  | typeError
  | malformedCiphertext
  | derivationFailed
  | encryptionFailed
  | decryptionFailed
  | fileWriteEmpty
  deriving DecidableEq, Repr

/-- The characters removed by JavaScript `String.prototype.trim`
(ECMA-262 WhiteSpace and LineTerminator code points). -/
def jsWhitespaceChar (c : Char) : Bool :=
  decide (c.toNat = 0x20 ∨ c.toNat = 0x09 ∨ c.toNat = 0x0a ∨ c.toNat = 0x0b ∨
    c.toNat = 0x0c ∨ c.toNat = 0x0d ∨ c.toNat = 0xa0 ∨ c.toNat = 0x1680 ∨
    (0x2000 ≤ c.toNat ∧ c.toNat ≤ 0x200a) ∨ c.toNat = 0x2028 ∨ c.toNat = 0x2029 ∨
    c.toNat = 0x202f ∨ c.toNat = 0x205f ∨ c.toNat = 0x3000 ∨ c.toNat = 0xfeff)

/-- JS `String.prototype.trim`. -/
def jsTrim (s : JStr) : JStr :=
  ((s.dropWhile jsWhitespaceChar).reverse.dropWhile jsWhitespaceChar).reverse

/-- JS `String.prototype.startsWith`. -/
def jsStartsWith (s pre : JStr) : Bool :=
  pre.isPrefixOf s

/-- JS `String.prototype.endsWith` for a single character. -/
def jsEndsWithChar (s : JStr) (c : Char) : Bool :=
  s.getLast? = some c

/-- JS `String.prototype.split` with a single-character separator. -/
def splitOnChar (sep : Char) : JStr → List JStr
  | [] => [[]]
  | c :: cs =>
    let rest := splitOnChar sep cs
    if c = sep then [] :: rest
    else
      match rest with
      | [] => [[c]]
      | r :: rs => (c :: r) :: rs

/-- JS `Array.prototype.join` with a single-character separator. -/
def joinWith (sep : Char) : List JStr → JStr
  | [] => []
  | [s] => s
  | s :: rest => s ++ sep :: joinWith sep rest

theorem splitOnChar_ne_nil (sep : Char) (s : JStr) : splitOnChar sep s ≠ [] := by
  cases s with
  | nil => simp [splitOnChar]
  | cons c cs =>
    simp only [splitOnChar]
    split
    · simp
    · split <;> simp

theorem joinWith_splitOnChar (sep : Char) (s : JStr) :
    joinWith sep (splitOnChar sep s) = s := by
  induction s with
  | nil => rfl
  | cons c cs ih =>
    simp only [splitOnChar]
    split
    · subst c
      cases h : splitOnChar sep cs with
      | nil => exact absurd h (splitOnChar_ne_nil sep cs)
      | cons r rs =>
        rw [h] at ih
        simpa [joinWith] using ih
    · rename_i hne
      cases h : splitOnChar sep cs with
      | nil => exact absurd h (splitOnChar_ne_nil sep cs)
      | cons r rs =>
        rw [h] at ih
        cases rs with
        | nil => simpa [joinWith] using ih
        | cons r2 rs2 => simpa [joinWith] using ih

theorem splitOnChar_joinWith (sep : Char) (L : List JStr) (hL : L ≠ [])
    (hsep : ∀ l ∈ L, sep ∉ l) :
    splitOnChar sep (joinWith sep L) = L := by
  induction L with
  | nil => exact absurd rfl hL
  | cons s rest ih =>
    have hs : sep ∉ s := hsep s (by simp)
    cases rest with
    | nil =>
      simp only [joinWith]
      clear ih hL hsep
      induction s with
      | nil => rfl
      | cons c cs ihs =>
        have hc : c ≠ sep := fun h => hs (h ▸ List.mem_cons_self c cs)
        have hcs : sep ∉ cs := fun h => hs (List.mem_cons_of_mem c h)
        simp only [splitOnChar, if_neg hc, ihs hcs]
    | cons t rest2 =>
      have ihr := ih (by simp) (fun l hl => hsep l (List.mem_cons_of_mem s hl))
      simp only [joinWith] at ihr ⊢
      clear ih hL hsep
      induction s with
      | nil => simpa [splitOnChar] using ihr
      | cons c cs ihs =>
        have hc : c ≠ sep := fun h => hs (h ▸ List.mem_cons_self c cs)
        have hcs : sep ∉ cs := fun h => hs (List.mem_cons_of_mem c h)
        have h2 := ihs hcs
        simp only [List.cons_append, splitOnChar, if_neg hc, List.append_eq, h2]

/-! ## Base64 (node `Buffer.toString('base64')` / `Buffer.from(_, 'base64')`) -/

/-- The base64 alphabet, in index order. -/
def base64Alphabet : List Char :=
  "ABCDEFGHIJKLMNOPQRSTUVWXYZabcdefghijklmnopqrstuvwxyz0123456789+/".data

/-- The base64 digit character for a 6-bit value. -/
def b64Char (n : Nat) : Char := base64Alphabet.getD n 'A'

/-- The 6-bit value of a base64 digit character (`none` for padding or junk,
which node's decoder skips). -/
def b64Val (c : Char) : Option Nat := base64Alphabet.indexOf? c

/-- `Buffer.toString('base64')`: standard base64 with `=` padding,
3 input bytes per 4 output digits. -/
def b64encode : List Nat → JStr
  | [] => []
  | [a] => [b64Char (a / 4), b64Char (a % 4 * 16), '=', '=']
  | [a, b] => [b64Char (a / 4), b64Char (a % 4 * 16 + b / 16), b64Char (b % 16 * 4), '=']
  | a :: b :: d :: rest =>
    b64Char (a / 4) :: b64Char (a % 4 * 16 + b / 16) ::
    b64Char (b % 16 * 4 + d / 64) :: b64Char (d % 64) :: b64encode rest

/-- Regroups a stream of 6-bit values into bytes (a trailing lone value is
dropped, as node does). -/
def b64decodeVals : List Nat → List Nat
  | a :: b :: c :: d :: rest =>
    (a * 4 + b / 16) :: (b % 16 * 16 + c / 4) :: (c % 4 * 64 + d) :: b64decodeVals rest
  | [a, b, c] => [a * 4 + b / 16, b % 16 * 16 + c / 4]
  | [a, b] => [a * 4 + b / 16]
  | _ => []

/-- `Buffer.from(s, 'base64')`: skips non-alphabet characters (including `=`
padding), then regroups sextets into bytes. -/
def b64decode (s : JStr) : List Nat := b64decodeVals (s.filterMap b64Val)

theorem b64Val_b64Char : ∀ n, n < 64 → b64Val (b64Char n) = some n := by decide

theorem b64Val_pad : b64Val '=' = none := by decide

theorem b64Char_mem (n : Nat) : b64Char n ∈ base64Alphabet := by
  unfold b64Char List.getD
  cases h : base64Alphabet.get? n with
  | none => simp [h]; decide
  | some c => simpa [h] using List.get?_mem h

theorem b64encode_chars (l : List Nat) :
    ∀ c ∈ b64encode l, c ∈ base64Alphabet ∨ c = '=' := by
  induction l using b64encode.induct with
  | case1 => intro c hc; simp [b64encode] at hc
  | case2 a =>
    intro c hc
    simp only [b64encode, List.mem_cons, List.not_mem_nil, or_false] at hc
    rcases hc with rfl | rfl | rfl | rfl
    · exact Or.inl (b64Char_mem _)
    · exact Or.inl (b64Char_mem _)
    · exact Or.inr rfl
    · exact Or.inr rfl
  | case3 a b =>
    intro c hc
    simp only [b64encode, List.mem_cons, List.not_mem_nil, or_false] at hc
    rcases hc with rfl | rfl | rfl | rfl
    · exact Or.inl (b64Char_mem _)
    · exact Or.inl (b64Char_mem _)
    · exact Or.inl (b64Char_mem _)
    · exact Or.inr rfl
  | case4 a b d rest ih =>
    intro c hc
    simp only [b64encode, List.mem_cons] at hc
    rcases hc with rfl | rfl | rfl | rfl | hm
    · exact Or.inl (b64Char_mem _)
    · exact Or.inl (b64Char_mem _)
    · exact Or.inl (b64Char_mem _)
    · exact Or.inl (b64Char_mem _)
    · exact ih c hm

theorem b64encode_ne_nil (l : List Nat) (h : l ≠ []) : b64encode l ≠ [] := by
  match l with
  | [a] => simp [b64encode]
  | [a, b] => simp [b64encode]
  | a :: b :: d :: rest => simp [b64encode]

theorem b64decode_b64encode (l : List Nat) (h : ∀ b ∈ l, b < 256) :
    b64decode (b64encode l) = l := by
  unfold b64decode
  induction l using b64encode.induct with
  | case1 => rfl
  | case2 a =>
    have ha : a < 256 := h a (by simp)
    have h1 : a / 4 < 64 := by omega
    have h2 : a % 4 * 16 < 64 := by omega
    simp only [b64encode, List.filterMap, b64Val_b64Char _ h1, b64Val_b64Char _ h2, b64Val_pad]
    show b64decodeVals [a / 4, a % 4 * 16] = [a]
    simp only [b64decodeVals]
    congr 1
    omega
  | case3 a b =>
    have ha : a < 256 := h a (by simp)
    have hb : b < 256 := h b (by simp)
    have h1 : a / 4 < 64 := by omega
    have h2 : a % 4 * 16 + b / 16 < 64 := by omega
    have h3 : b % 16 * 4 < 64 := by omega
    simp only [b64encode, List.filterMap, b64Val_b64Char _ h1, b64Val_b64Char _ h2,
      b64Val_b64Char _ h3, b64Val_pad]
    show b64decodeVals [a / 4, a % 4 * 16 + b / 16, b % 16 * 4] = [a, b]
    simp only [b64decodeVals]
    congr 1
    · omega
    · congr 1
      omega
  | case4 a b d rest ih =>
    have ha : a < 256 := h a (by simp)
    have hb : b < 256 := h b (by simp)
    have hd : d < 256 := h d (by simp)
    have h1 : a / 4 < 64 := by omega
    have h2 : a % 4 * 16 + b / 16 < 64 := by omega
    have h3 : b % 16 * 4 + d / 64 < 64 := by omega
    have h4 : d % 64 < 64 := by omega
    have ihr := ih (fun x hx => h x (by simp [hx]))
    simp only [b64encode, List.filterMap, b64Val_b64Char _ h1, b64Val_b64Char _ h2,
      b64Val_b64Char _ h3, b64Val_b64Char _ h4] at ihr ⊢
    show b64decodeVals (a / 4 :: (a % 4 * 16 + b / 16) :: (b % 16 * 4 + d / 64) :: d % 64 ::
      List.filterMap b64Val (b64encode rest)) = a :: b :: d :: rest
    rw [b64decodeVals]
    rw [ihr]
    congr 1
    · omega
    · congr 1
      · omega
      · congr 1
        omega

/-! ## JSON (`JSON.parse` / `JSON.stringify`) -/

/-- JSON documents. Numbers keep their source lexeme: none of the embedded
code inspects numeric values. -/
inductive Json where
  | null
  | bool (b : Bool)
  | num (lexeme : JStr)
  | str (s : JStr)
  | arr (elems : List Json)
  | obj (members : List (JStr × Json))

/-- The whitespace the JSON grammar allows between tokens. -/
def jsonWsChar (c : Char) : Bool :=
  decide (c = ' ' ∨ c = '\t' ∨ c = '\n' ∨ c = '\r')

def skipWs (cs : JStr) : JStr := cs.dropWhile jsonWsChar

def isJsonDigit (c : Char) : Bool := decide ('0' ≤ c ∧ c ≤ '9')

def hexVal (c : Char) : Option Nat :=
  if '0' ≤ c ∧ c ≤ '9' then some (c.toNat - '0'.toNat)
  else if 'a' ≤ c ∧ c ≤ 'f' then some (c.toNat - 'a'.toNat + 10)
  else if 'A' ≤ c ∧ c ≤ 'F' then some (c.toNat - 'A'.toNat + 10)
  else none

/-- The character denoted by a single-character JSON escape. -/
def escChar (e : Char) : Option Char :=
  if e = '"' then some '"'
  else if e = '\\' then some '\\'
  else if e = '/' then some '/'
  else if e = 'b' then some '\x08'
  else if e = 'f' then some '\x0c'
  else if e = 'n' then some '\n'
  else if e = 'r' then some '\r'
  else if e = 't' then some '\t'
  else none

/-- Parses the body of a JSON string literal after the opening quote; returns
the decoded contents and the input after the closing quote. -/
def parseStringBody : JStr → Option (JStr × JStr)
  | [] => none
  | c :: cs =>
    if c = '"' then some ([], cs)
    else if c = '\\' then
      match cs with
      | [] => none
      | e :: cs2 =>
        if e = 'u' then
          match cs2 with
          | h1 :: h2 :: h3 :: h4 :: cs3 =>
            match hexVal h1, hexVal h2, hexVal h3, hexVal h4 with
            | some a, some b, some c3, some d =>
              (parseStringBody cs3).map
                (fun p => (Char.ofNat (a * 4096 + b * 256 + c3 * 16 + d) :: p.1, p.2))
            | _, _, _, _ => none
          | _ => none
        else
          match escChar e with
          | some ec => (parseStringBody cs2).map (fun p => (ec :: p.1, p.2))
          | none => none
    else if c.toNat < 0x20 then none
    else (parseStringBody cs).map (fun p => (c :: p.1, p.2))

/-- Optional fraction part of a JSON number. -/
def parseFrac (cs : JStr) : Option (JStr × JStr) :=
  match cs with
  | '.' :: t =>
    match t.takeWhile isJsonDigit with
    | [] => none
    | d :: ds => some ('.' :: d :: ds, t.dropWhile isJsonDigit)
  | _ => some ([], cs)

/-- Optional exponent part of a JSON number. -/
def parseExp (cs : JStr) : Option (JStr × JStr) :=
  match cs with
  | [] => some ([], [])
  | e :: t =>
    if e = 'e' ∨ e = 'E' then
      let p : JStr × JStr :=
        match t with
        | '+' :: u => (['+'], u)
        | '-' :: u => (['-'], u)
        | _ => ([], t)
      match p.2.takeWhile isJsonDigit with
      | [] => none
      | d :: ds => some (e :: p.1 ++ d :: ds, p.2.dropWhile isJsonDigit)
    else some ([], e :: t)

/-- Parses a JSON number, returning its lexeme. -/
def parseNumber (cs : JStr) : Option (JStr × JStr) :=
  let p : JStr × JStr :=
    match cs with
    | '-' :: t => (['-'], t)
    | _ => ([], cs)
  match p.2 with
  | [] => none
  | c :: t =>
    let ip : Option (JStr × JStr) :=
      if c = '0' then some (p.1 ++ ['0'], t)
      else if isJsonDigit c then some (p.1 ++ c :: t.takeWhile isJsonDigit, t.dropWhile isJsonDigit)
      else none
    match ip with
    | none => none
    | some (intPart, rest1) =>
      match parseFrac rest1 with
      | none => none
      | some (fracPart, rest2) =>
        match parseExp rest2 with
        | none => none
        | some (expPart, rest3) => some (intPart ++ fracPart ++ expPart, rest3)

/-- JS object property assignment while building a parsed JSON object: a
repeated key keeps its first position and takes the last value. -/
def insertMember : List (JStr × Json) → JStr → Json → List (JStr × Json)
  | [], k, v => [(k, v)]
  | (k0, v0) :: rest, k, v =>
    if k0 = k then (k0, v) :: rest else (k0, v0) :: insertMember rest k v

mutual

/-- Parses one JSON value (fuel-indexed recursion; `jsonParse` supplies ample
fuel, so fuel exhaustion only cuts off inputs no valid document can produce). -/
def parseValue : Nat → JStr → Option (Json × JStr)
  | 0, _ => none
  | fuel + 1, cs =>
    match skipWs cs with
    | [] => none
    | c :: rest =>
      if c = '{' then
        match skipWs rest with
        | '}' :: rest2 => some (Json.obj [], rest2)
        | _ => parseMembers fuel rest []
      else if c = '[' then
        match skipWs rest with
        | ']' :: rest2 => some (Json.arr [], rest2)
        | _ => parseElements fuel rest []
      else if c = '"' then
        (parseStringBody rest).map (fun p => (Json.str p.1, p.2))
      else if c = 't' then
        match rest with
        | 'r' :: 'u' :: 'e' :: r => some (Json.bool true, r)
        | _ => none
      else if c = 'f' then
        match rest with
        | 'a' :: 'l' :: 's' :: 'e' :: r => some (Json.bool false, r)
        | _ => none
      else if c = 'n' then
        match rest with
        | 'u' :: 'l' :: 'l' :: r => some (Json.null, r)
        | _ => none
      else
        (parseNumber (c :: rest)).map (fun p => (Json.num p.1, p.2))
termination_by structural fuel => fuel

/-- Parses the members of a JSON object after `{` (at least one member). -/
def parseMembers : Nat → JStr → List (JStr × Json) → Option (Json × JStr)
  | 0, _, _ => none
  | fuel + 1, cs, acc =>
    match skipWs cs with
    | '"' :: rest =>
      match parseStringBody rest with
      | none => none
      | some (k, rest2) =>
        match skipWs rest2 with
        | ':' :: rest3 =>
          match parseValue fuel rest3 with
          | none => none
          | some (v, rest4) =>
            match skipWs rest4 with
            | ',' :: rest5 => parseMembers fuel rest5 (insertMember acc k v)
            | '}' :: rest5 => some (Json.obj (insertMember acc k v), rest5)
            | _ => none
        | _ => none
    | _ => none
termination_by structural fuel _ _ => fuel

/-- Parses the elements of a JSON array after `[` (at least one element). -/
def parseElements : Nat → JStr → List Json → Option (Json × JStr)
  | 0, _, _ => none
  | fuel + 1, cs, acc =>
    match parseValue fuel cs with
    | none => none
    | some (v, rest) =>
      match skipWs rest with
      | ',' :: rest2 => parseElements fuel rest2 (acc ++ [v])
      | ']' :: rest2 => some (Json.arr (acc ++ [v]), rest2)
      | _ => none
termination_by structural fuel _ _ => fuel

end

/-- `JSON.parse`: parse one value, allow trailing whitespace only.
A `none` result models a thrown `SyntaxError`. -/
def jsonParse (s : JStr) : Option Json :=
  match parseValue (2 * s.length + 2) s with
  | some (j, rest) => if skipWs rest = [] then some j else none
  | none => none

def hexDigitChar (n : Nat) : Char :=
  ("0123456789abcdef".data).getD n '0'

/-- `JSON.stringify` escaping for one character of a string value. -/
def jsonEscapeChar (c : Char) : JStr :=
  if c = '"' then ['\\', '"']
  else if c = '\\' then ['\\', '\\']
  else if c = '\x08' then ['\\', 'b']
  else if c = '\x0c' then ['\\', 'f']
  else if c = '\n' then ['\\', 'n']
  else if c = '\r' then ['\\', 'r']
  else if c = '\t' then ['\\', 't']
  else if c.toNat < 0x20 then
    ['\\', 'u', '0', '0', hexDigitChar (c.toNat / 16), hexDigitChar (c.toNat % 16)]
  else [c]

/-- `JSON.stringify` of a string value. -/
def jsonQuote (s : JStr) : JStr :=
  ('"' :: (s.flatMap jsonEscapeChar)) ++ ['"']

/-- The `{ salt, iv, cipherText }` wire structure returned by
`EncryptionService.encrypt` (all three fields base64 strings). -/
structure EncryptionParameters where
  salt : JStr
  iv : JStr
  cipherText : JStr
  deriving DecidableEq, Repr

def saltKey : JStr := ['s', 'a', 'l', 't']
def ivKey : JStr := ['i', 'v']
def cipherTextKey : JStr := ['c', 'i', 'p', 'h', 'e', 'r', 'T', 'e', 'x', 't']

/-- `JSON.stringify({ salt, iv, cipherText })` with string field values:
field order follows the object literal in `encryptIfNeeded`. -/
def jsonStringifyEncParams (p : EncryptionParameters) : JStr :=
  ('{' :: jsonQuote saltKey) ++ (':' :: jsonQuote p.salt) ++
  (',' :: jsonQuote ivKey) ++ (':' :: jsonQuote p.iv) ++
  (',' :: jsonQuote cipherTextKey) ++ (':' :: jsonQuote p.cipherText) ++ ['}']

/-! ## Randomness source (`SecureKeyGenerator`, from the source file) -/

/-- Modelled from the spec: the byte-length constants of the missing
`models/utils/encryption.interface` module (`CRYPTO_CONFIG.BYTE_LENGTHS`):
a 16-byte salt, a 12-byte AES-GCM IV, a 32-byte secret key. -/
def SALT_LENGTH : Int := 16

/-- Modelled from the spec: see `SALT_LENGTH`. -/
def WEB_CRYPTO_IV_LENGTH : Int := 12

/-- Modelled from the spec: see `SALT_LENGTH`. -/
def SECRET_KEY_LENGTH : Int := 32

/-- Modelled from the spec: see `SALT_LENGTH`. -/
def IV_LENGTH : Int := 16

namespace SecureKeyGenerator

/-- node `crypto.randomBytes`: a negative size throws a `RangeError` inside the
generator; size `0` succeeds with an empty buffer. The bytes produced are the
prefix of the ambient entropy stream `entropy`. -/
def randomBytes (size : Int) (entropy : List Nat) : Except JsError (List Nat) :=
  if size < 0 then .error .rangeError else .ok (entropy.take size.toNat)

/-- `SecureKeyGenerator.generateBase64IV`. -/
def generateBase64IV (length : Int) (entropy : List Nat) : Except JsError JStr :=
  if length ≤ 0 then .error .invalidParameter
  else (randomBytes length entropy).map b64encode

/-- `SecureKeyGenerator.generateBufferIV`. -/
def generateBufferIV (length : Int) (entropy : List Nat) : Except JsError (List Nat) :=
  if length ≤ 0 then .error .invalidParameter
  else randomBytes length entropy

/-- `SecureKeyGenerator.generateWebCryptoIV` (both the Web Crypto
`getRandomValues` path and the node `randomBytes` fallback produce `length`
fresh bytes, so one model covers both). -/
def generateWebCryptoIV (length : Int) (entropy : List Nat) : Except JsError (List Nat) :=
  if length ≤ 0 then .error .invalidParameter
  else randomBytes length entropy

/-- `SecureKeyGenerator.generateBase64Salt`. -/
def generateBase64Salt (length : Int) (entropy : List Nat) : Except JsError JStr :=
  if length ≤ 0 then .error .invalidParameter
  else (randomBytes length entropy).map b64encode

/-- `SecureKeyGenerator.generateBase64SecretKey`. Unlike the IV and salt
generators, the source has no positive-length guard here: the body goes
straight into `crypto.randomBytes`. -/
def generateBase64SecretKey (length : Int) (entropy : List Nat) : Except JsError JStr :=
  (randomBytes length entropy).map b64encode

end SecureKeyGenerator

/-! ## External cryptographic primitives -/

/-- The external cryptographic collaborators (argon2, Web Crypto AES-GCM,
`TextEncoder`/`TextDecoder`), abstracted with exactly their documented
behaviour: UTF-8 encoding round-trips (`TextDecoder` is lossy, never throws),
AES-GCM decryption inverts encryption under the same key and IV, and a
successful AES-GCM encryption yields a nonempty byte sequence (the 16-byte
authentication tag is always appended). `deriveKey` models
`deriveKeyWithArgon2` (argon2id with `raw: true` plus `importKey`): a pure
function of the secret and the base64 salt string. -/
structure CryptoPrimitives where
  utf8Encode : JStr → List Nat
  utf8DecodeLossy : List Nat → JStr
  deriveKey : JStr → JStr → Except JsError (List Nat)
  aesGcmEncrypt : List Nat → List Nat → List Nat → Except JsError (List Nat)
  aesGcmDecrypt : List Nat → List Nat → List Nat → Except JsError (List Nat)
  utf8Encode_bytes : ∀ s, ∀ b ∈ utf8Encode s, b < 256
  utf8_roundtrip : ∀ s, utf8DecodeLossy (utf8Encode s) = s
  aes_roundtrip : ∀ k iv p c, aesGcmEncrypt k iv p = .ok c → aesGcmDecrypt k iv c = .ok p
  aes_enc_bytes : ∀ k iv p c, aesGcmEncrypt k iv p = .ok c →
    (∀ b ∈ p, b < 256) → ∀ b ∈ c, b < 256
  aes_enc_ne_nil : ∀ k iv p c, aesGcmEncrypt k iv p = .ok c → c ≠ []

/-! ## `EncryptionService` -/

namespace EncryptionService

/-- `EncryptionService.encrypt`: generate a fresh base64 salt and raw IV
(their random bytes are explicit arguments here), derive a key with Argon2id,
AES-GCM-encrypt the UTF-8 plaintext, and base64-encode the IV and ciphertext. -/
def encrypt (P : CryptoPrimitives) (value secretKey : JStr)
    (saltBytes ivBytes : List Nat) : Except JsError EncryptionParameters := do
  let salt := b64encode saltBytes
  let key ← P.deriveKey secretKey salt
  let encryptedBuffer ← P.aesGcmEncrypt key ivBytes (P.utf8Encode value)
  pure { salt := salt, iv := b64encode ivBytes, cipherText := b64encode encryptedBuffer }

/-- JS property read `parsedData.k` on a parsed JSON value
(`undefined`, i.e. `none`, unless the value is an object with the key). -/
def jsGetProp (j : Json) (k : JStr) : Option Json :=
  match j with
  | .obj ms => (ms.find? (fun m => m.1 = k)).map (fun m => m.2)
  | _ => none

/-- Whether a JSON number lexeme denotes zero (every digit it contains is 0). -/
def numLexemeIsZero (lex : JStr) : Bool :=
  lex.all (fun c => decide (c = '-' ∨ c = '0' ∨ c = '.' ∨ c = 'e' ∨ c = 'E' ∨ c = '+'))

/-- JS truthiness of a (possibly absent) parsed JSON field. -/
def jsonTruthy : Option Json → Bool
  | none => false
  | some .null => false
  | some (.bool b) => b
  | some (.num lex) => !numLexemeIsZero lex
  | some (.str s) => !s.isEmpty
  | some (.arr _) => true
  | some (.obj _) => true

/-- `parseEncryptedData` + `validateParsedData`: reject empty input, JSON-parse
(a parse failure models the thrown `SyntaxError`), and require the three
fields `salt`, `iv`, `cipherText` to be present and truthy. -/
def parseEncryptedData (encryptedData : JStr) : Except JsError (Json × Json × Json) :=
  if encryptedData = [] then .error .malformedCiphertext
  else
    match jsonParse encryptedData with
    | none => .error .malformedCiphertext
    | some parsedData =>
      match jsGetProp parsedData saltKey, jsGetProp parsedData ivKey,
          jsGetProp parsedData cipherTextKey with
      | some saltJ, some ivJ, some ctJ =>
        if jsonTruthy (some saltJ) ∧ jsonTruthy (some ivJ) ∧ jsonTruthy (some ctJ) then
          .ok (saltJ, ivJ, ctJ)
        else .error .malformedCiphertext
      | _, _, _ => .error .malformedCiphertext

/-- Using a parsed JSON field where a string is required
(`Buffer.from(x, 'base64')` / the argon2 salt): non-strings throw a
`TypeError`. -/
def asString : Json → Except JsError JStr
  | .str s => .ok s
  | _ => .error .typeError

/-- `EncryptionService.decrypt`: parse and validate the wire JSON, re-derive
the key from the embedded salt, base64-decode IV and ciphertext, AES-GCM
decrypt, and UTF-8-decode the plaintext. -/
def decrypt (P : CryptoPrimitives) (encryptedData secretKey : JStr) :
    Except JsError JStr := do
  let parsed ← parseEncryptedData encryptedData
  let salt ← asString parsed.1
  let iv ← asString parsed.2.1
  let cipherText ← asString parsed.2.2
  let key ← P.deriveKey secretKey salt
  let ivBuffer := b64decode iv
  let cipherBuffer := b64decode cipherText
  let decryptedBuffer ← P.aesGcmDecrypt key ivBuffer cipherBuffer
  pure (P.utf8DecodeLossy decryptedBuffer)

end EncryptionService

/-- Characters that `JSON.stringify` leaves unescaped in a string value and
that the string-literal parser consumes verbatim. -/
def jsonSafeChar (c : Char) : Bool :=
  decide (c ≠ '"' ∧ c ≠ '\\' ∧ 0x20 ≤ c.toNat)

theorem jsonEscapeChar_safe {c : Char} (h : jsonSafeChar c = true) :
    jsonEscapeChar c = [c] := by
  obtain ⟨h1, h2, h3⟩ := of_decide_eq_true h
  have e1 : c ≠ '\x08' := by intro e; subst e; exact absurd h3 (by decide)
  have e2 : c ≠ '\x0c' := by intro e; subst e; exact absurd h3 (by decide)
  have e3 : c ≠ '\n' := by intro e; subst e; exact absurd h3 (by decide)
  have e4 : c ≠ '\r' := by intro e; subst e; exact absurd h3 (by decide)
  have e5 : c ≠ '\t' := by intro e; subst e; exact absurd h3 (by decide)
  have e6 : ¬(c.toNat < 0x20) := by omega
  simp [jsonEscapeChar, h1, h2, e1, e2, e3, e4, e5, e6]

theorem flatMap_jsonEscape_safe {s : JStr} (h : ∀ c ∈ s, jsonSafeChar c = true) :
    s.flatMap jsonEscapeChar = s := by
  induction s with
  | nil => rfl
  | cons c cs ih =>
    simp only [List.flatMap_cons, jsonEscapeChar_safe (h c (by simp)),
      ih (fun d hd => h d (by simp [hd])), List.singleton_append]

theorem jsonQuote_safe {s : JStr} (h : ∀ c ∈ s, jsonSafeChar c = true) :
    jsonQuote s = '"' :: (s ++ ['"']) := by
  unfold jsonQuote
  rw [flatMap_jsonEscape_safe h]
  simp

theorem parseStringBody_safe {s : JStr} (h : ∀ c ∈ s, jsonSafeChar c = true) (rest : JStr) :
    parseStringBody (s ++ '"' :: rest) = some (s, rest) := by
  induction s with
  | nil => simp [parseStringBody.eq_def]
  | cons c cs ih =>
    obtain ⟨h1, h2, h3⟩ := of_decide_eq_true (h c (by simp))
    have ihr := ih (fun d hd => h d (by simp [hd]))
    have h4 : ¬(c.toNat < 0x20) := by omega
    rw [List.cons_append, parseStringBody.eq_def]
    simp only [if_neg h1, if_neg h2, if_neg h4, ihr, Option.map_some']

theorem skipWs_cons {c : Char} (hc : jsonWsChar c = false) (cs : JStr) :
    skipWs (c :: cs) = c :: cs := by
  simp [skipWs, List.dropWhile_cons, hc]

theorem parseValue_quote {s : JStr} (h : ∀ c ∈ s, jsonSafeChar c = true) (f : Nat) (rest : JStr) :
    parseValue (f + 1) (jsonQuote s ++ rest) = some (Json.str s, rest) := by
  rw [jsonQuote_safe h]
  have e : ('"' :: (s ++ ['"'])) ++ rest = '"' :: (s ++ '"' :: rest) := by simp
  rw [e]
  simp +decide [parseValue, skipWs_cons (c := '"') (by decide), parseStringBody_safe h]

theorem parseMembers_step {k s : JStr} (hk : ∀ c ∈ k, jsonSafeChar c = true)
    (hv : ∀ c ∈ s, jsonSafeChar c = true) (f : Nat) (tail : JStr) (acc : List (JStr × Json)) :
    parseMembers (f + 2) ('"' :: (k ++ '"' :: ':' :: (jsonQuote s ++ ',' :: tail))) acc =
      parseMembers (f + 1) tail (insertMember acc k (Json.str s)) := by
  show parseMembers ((f + 1) + 1) _ _ = _
  simp only [parseMembers]
  rw [skipWs_cons (c := '"') (by decide)]
  simp only [parseStringBody_safe hk]
  rw [skipWs_cons (c := ':') (by decide)]
  simp only [parseValue_quote hv f]
  rw [skipWs_cons (c := ',') (by decide)]
  rfl

theorem parseMembers_last {k s : JStr} (hk : ∀ c ∈ k, jsonSafeChar c = true)
    (hv : ∀ c ∈ s, jsonSafeChar c = true) (f : Nat) (tail : JStr) (acc : List (JStr × Json)) :
    parseMembers (f + 2) ('"' :: (k ++ '"' :: ':' :: (jsonQuote s ++ '}' :: tail))) acc =
      some (Json.obj (insertMember acc k (Json.str s)), tail) := by
  show parseMembers ((f + 1) + 1) _ _ = _
  simp only [parseMembers]
  rw [skipWs_cons (c := '"') (by decide)]
  simp only [parseStringBody_safe hk]
  rw [skipWs_cons (c := ':') (by decide)]
  simp only [parseValue_quote hv f]
  rw [skipWs_cons (c := '}') (by decide)]
  rfl

theorem parseValue_encParams (p : EncryptionParameters)
    (hs : ∀ c ∈ p.salt, jsonSafeChar c = true)
    (hi : ∀ c ∈ p.iv, jsonSafeChar c = true)
    (hc : ∀ c ∈ p.cipherText, jsonSafeChar c = true) (f : Nat) (rest : JStr) :
    parseValue (f + 6) (jsonStringifyEncParams p ++ rest) =
      some (Json.obj [(saltKey, Json.str p.salt), (ivKey, Json.str p.iv),
        (cipherTextKey, Json.str p.cipherText)], rest) := by
  have hsk : ∀ c ∈ saltKey, jsonSafeChar c = true := by decide
  have hik : ∀ c ∈ ivKey, jsonSafeChar c = true := by decide
  have hck : ∀ c ∈ cipherTextKey, jsonSafeChar c = true := by decide
  have e : jsonStringifyEncParams p ++ rest =
      '{' :: '"' :: (saltKey ++ '"' :: ':' :: (jsonQuote p.salt ++ ',' ::
        ('"' :: (ivKey ++ '"' :: ':' :: (jsonQuote p.iv ++ ',' ::
        ('"' :: (cipherTextKey ++ '"' :: ':' :: (jsonQuote p.cipherText ++ '}' :: rest)))))))) := by
    simp [jsonStringifyEncParams, jsonQuote_safe hsk, jsonQuote_safe hik, jsonQuote_safe hck]
  rw [e]
  show parseMembers (f + 5) ('"' :: (saltKey ++ '"' :: ':' :: (jsonQuote p.salt ++ ',' ::
      ('"' :: (ivKey ++ '"' :: ':' :: (jsonQuote p.iv ++ ',' ::
      ('"' :: (cipherTextKey ++ '"' :: ':' :: (jsonQuote p.cipherText ++ '}' :: rest))))))))) [] = _
  rw [parseMembers_step hsk hs, parseMembers_step hik hi, parseMembers_last hck hc]
  simp +decide [insertMember]

theorem jsonParse_encParams (p : EncryptionParameters)
    (hs : ∀ c ∈ p.salt, jsonSafeChar c = true)
    (hi : ∀ c ∈ p.iv, jsonSafeChar c = true)
    (hc : ∀ c ∈ p.cipherText, jsonSafeChar c = true) :
    jsonParse (jsonStringifyEncParams p) =
      some (Json.obj [(saltKey, Json.str p.salt), (ivKey, Json.str p.iv),
        (cipherTextKey, Json.str p.cipherText)]) := by
  have hlen : 2 ≤ (jsonStringifyEncParams p).length := by
    simp [jsonStringifyEncParams, jsonQuote]
  obtain ⟨f, hf⟩ : ∃ f, 2 * (jsonStringifyEncParams p).length + 2 = f + 6 :=
    ⟨2 * (jsonStringifyEncParams p).length - 4, by omega⟩
  unfold jsonParse
  rw [hf]
  have h6 := parseValue_encParams p hs hi hc f []
  rw [List.append_nil] at h6
  rw [h6]
  rfl

theorem base64_chars_safe : ∀ c ∈ base64Alphabet, jsonSafeChar c = true := by decide

theorem b64encode_safe (l : List Nat) : ∀ c ∈ b64encode l, jsonSafeChar c = true := by
  intro c hc
  rcases b64encode_chars l c hc with h | rfl
  · exact base64_chars_safe c h
  · decide

theorem ne_nil_isEmpty_false {α : Type} {l : List α} (h : l ≠ []) : l.isEmpty = false := by
  cases l with
  | nil => exact absurd rfl h
  | cons a t => rfl

/-! ## A concrete instantiation of the external primitives

Used to evaluate the theorems at explicit inputs: an invertible toy cipher
stands in for AES-GCM (it prefixes a tag byte, so like GCM its output is
longer than the plaintext and never empty), and a fixed-width 3-byte code
stands in for UTF-8. -/

def toyUtf8Encode (s : JStr) : List Nat :=
  s.flatMap (fun c => [c.toNat % 256, c.toNat / 256 % 256, c.toNat / 65536])

def toyUtf8Decode : List Nat → JStr
  | a :: b :: c :: rest => Char.ofNat (a + 256 * b + 65536 * c) :: toyUtf8Decode rest
  | _ => []

theorem char_toNat_lt (c : Char) : c.toNat < 0x110000 := by
  rcases c.valid with h | ⟨h1, h2⟩
  · exact Nat.lt_trans h (by norm_num)
  · exact h2

theorem toyUtf8_roundtrip (s : JStr) : toyUtf8Decode (toyUtf8Encode s) = s := by
  induction s with
  | nil => rfl
  | cons c cs ih =>
    have hv := char_toNat_lt c
    simp only [toyUtf8Encode, List.flatMap_cons] at *
    show toyUtf8Decode (_ :: _ :: _ :: _) = _
    rw [toyUtf8Decode]
    rw [show c.toNat % 256 + 256 * (c.toNat / 256 % 256) + 65536 * (c.toNat / 65536) = c.toNat
      by omega]
    rw [Char.ofNat_toNat]
    simpa using ih

theorem toyUtf8_bytes (s : JStr) : ∀ b ∈ toyUtf8Encode s, b < 256 := by
  intro b hb
  simp only [toyUtf8Encode, List.mem_flatMap] at hb
  obtain ⟨c, _, hm⟩ := hb
  have hv := char_toNat_lt c
  simp only [List.mem_cons, List.not_mem_nil, or_false] at hm
  rcases hm with rfl | rfl | rfl <;> omega

def toyPrims : CryptoPrimitives where
  utf8Encode := toyUtf8Encode
  utf8DecodeLossy := toyUtf8Decode
  deriveKey := fun secret salt => .ok (toyUtf8Encode (secret ++ salt))
  aesGcmEncrypt := fun _k _iv p => .ok (0 :: p)
  aesGcmDecrypt := fun _k _iv c =>
    match c with
    | 0 :: p => .ok p
    | _ => .error .decryptionFailed
  utf8Encode_bytes := toyUtf8_bytes
  utf8_roundtrip := toyUtf8_roundtrip
  aes_roundtrip := by
    intro k iv p c h
    simp only [Except.ok.injEq] at h
    subst h
    rfl
  aes_enc_bytes := by
    intro k iv p c h hp b hb
    simp only [Except.ok.injEq] at h
    subst h
    rcases List.mem_cons.mp hb with rfl | hm
    · omega
    · exact hp b hm
  aes_enc_ne_nil := by
    intro k iv p c h
    simp only [Except.ok.injEq] at h
    subst h
    simp

/-! ## Claim C1 -/

/-- **C1.** For every plaintext string `v` (including the empty string) and
every secret string `s`, decrypting the serialized result of
`encrypt(v, s)` with the same secret `s` returns exactly `v`. Quantified over
every salt/IV byte sequence the randomness source can hand to `encrypt`
(genuine bytes, nonempty — the generators produce 16 and 12 of them). -/
theorem C1_encrypt_decrypt_round_trip (P : CryptoPrimitives) (v s : JStr)
    (saltBytes ivBytes : List Nat)
    (hivb : ∀ b ∈ ivBytes, b < 256)
    (hsne : saltBytes ≠ []) (hivne : ivBytes ≠ []) (p : EncryptionParameters)
    (henc : EncryptionService.encrypt P v s saltBytes ivBytes = .ok p) :
    EncryptionService.decrypt P (jsonStringifyEncParams p) s = .ok v := by
  simp only [EncryptionService.encrypt, bind, Except.bind, pure, Except.pure] at henc
  cases hk : P.deriveKey s (b64encode saltBytes) with
  | error e => rw [hk] at henc; simp at henc
  | ok key =>
    rw [hk] at henc
    dsimp only at henc
    cases hae : P.aesGcmEncrypt key ivBytes (P.utf8Encode v) with
    | error e => rw [hae] at henc; simp at henc
    | ok ct =>
      rw [hae] at henc
      dsimp only at henc
      simp only [Except.ok.injEq] at henc
      subst henc
      unfold EncryptionService.decrypt EncryptionService.parseEncryptedData
      have hne : jsonStringifyEncParams
          ⟨b64encode saltBytes, b64encode ivBytes, b64encode ct⟩ ≠ [] := by
        simp [jsonStringifyEncParams]
      rw [if_neg (by exact hne)]
      rw [jsonParse_encParams _ (b64encode_safe _) (b64encode_safe _) (b64encode_safe _)]
      have hsne2 := ne_nil_isEmpty_false (b64encode_ne_nil saltBytes hsne)
      have hivne2 := ne_nil_isEmpty_false (b64encode_ne_nil ivBytes hivne)
      have hctne2 := ne_nil_isEmpty_false (b64encode_ne_nil ct (P.aes_enc_ne_nil _ _ _ _ hae))
      have hctb : ∀ b ∈ ct, b < 256 :=
        P.aes_enc_bytes _ _ _ _ hae (P.utf8Encode_bytes v)
      simp +decide [EncryptionService.jsGetProp, List.find?,
        EncryptionService.jsonTruthy, hsne2, hivne2, hctne2,
        EncryptionService.asString, bind, Except.bind, hk,
        b64decode_b64encode ivBytes hivb, b64decode_b64encode ct hctb,
        P.aes_roundtrip _ _ _ _ hae, pure, Except.pure, P.utf8_roundtrip]

def c1SaltBytes : List Nat := List.replicate 16 1

def c1IvBytes : List Nat := List.replicate 12 2

def c1Params : EncryptionParameters :=
  { salt := b64encode c1SaltBytes, iv := b64encode c1IvBytes,
    cipherText := b64encode (0 :: toyUtf8Encode ['p', 'w', '1']) }

/-- C1 witness: the round trip evaluated at `v = "pw1"`, `s = "k"` with
concrete 16-byte salt and 12-byte IV under the concrete primitives. -/
theorem C1_witness :
    EncryptionService.decrypt toyPrims (jsonStringifyEncParams c1Params) ['k'] =
      .ok ['p', 'w', '1'] :=
  C1_encrypt_decrypt_round_trip toyPrims ['p', 'w', '1'] ['k'] c1SaltBytes c1IvBytes
    (by decide) (by decide) (by decide) c1Params (by rfl)

/-! ## `EncryptionServiceUtils` — the config rewrite engine -/

namespace EncryptionServiceUtils

/-- JS `Record<string, string>` property assignment `vars[key] = value`: a
repeated key keeps its first position and takes the new value (environment
variable names are not array-index strings, so insertion order is preserved). -/
def recordSet : List (JStr × JStr) → JStr → JStr → List (JStr × JStr)
  | [], k, v => [(k, v)]
  | (k0, v0) :: rest, k, v =>
    if k0 = k then (k0, v) :: rest else (k0, v0) :: recordSet rest k v

/-- JS property read `vars[key]` (`none` models `undefined`). -/
def recordGet (vars : List (JStr × JStr)) (k : JStr) : Option JStr :=
  (vars.find? (fun kv => kv.1 = k)).map (fun kv => kv.2)

/-- `Object.assign(target, source)` for string records. -/
def recordAssign (target source : List (JStr × JStr)) : List (JStr × JStr) :=
  source.foldl (fun acc kv => recordSet acc kv.1 kv.2) target

/-- `parseEnvironmentLine`: trim the line, require a nonempty line containing
`=`, split on `=`, re-join the value parts (values may contain `=`), and
require truthy key and value; returns the trimmed pair. -/
def parseEnvironmentLine (line : JStr) : Option (JStr × JStr) :=
  let trimmedLine := jsTrim line
  if trimmedLine = [] ∨ trimmedLine.contains '=' = false then none
  else
    match splitOnChar '=' trimmedLine with
    | [] => none
    | key :: valueParts =>
      let value := joinWith '=' valueParts
      if key ≠ [] ∧ value ≠ [] then some (jsTrim key, jsTrim value) else none

/-- `extractEnvironmentVariables`: fold the parsed entries into a record. -/
def extractEnvironmentVariables (lines : List JStr) : List (JStr × JStr) :=
  lines.foldl
    (fun vars line =>
      match parseEnvironmentLine line with
      | some kv => recordSet vars kv.1 kv.2
      | none => vars) []

/-- `findEnvironmentVariable`: exact key lookup first (the hit must be truthy,
i.e. a nonempty value), then first exact value match over the entries. -/
def findEnvironmentVariable (allEnvVariables : List (JStr × JStr)) (lookupValue : JStr) :
    List (JStr × JStr) :=
  if (recordGet allEnvVariables lookupValue).getD [] ≠ [] then
    [(lookupValue, (recordGet allEnvVariables lookupValue).getD [])]
  else
    match allEnvVariables.find? (fun kv => kv.2 = lookupValue) with
    | some kv => [kv]
    | none => []

/-- JS truthiness of an object value: every object, `{}` included, is truthy.
`findEnvironmentVariable` always returns an object, so the `if (!found)`
warning guard in `determineVariablesToEncrypt` tests this. -/
def jsObjectTruthy (_found : List (JStr × JStr)) : Bool := true

/-- `determineVariablesToEncrypt`. Also returns the warning messages logged
(the lookups for which the `if (!found)` guard fires). An empty or absent
lookup array selects every extracted entry via `Object.assign`. -/
def determineVariablesToEncrypt (allEnvVariables : List (JStr × JStr))
    (envVariables : Option (List JStr)) : List (JStr × JStr) × List JStr :=
  match envVariables with
  | some lookups =>
    if lookups.length > 0 then
      lookups.foldl
        (fun acc lookupValue =>
          let found := findEnvironmentVariable allEnvVariables lookupValue
          let warnings :=
            if jsObjectTruthy found = false then acc.2 ++ [lookupValue] else acc.2
          (recordAssign acc.1 found, warnings))
        ([], [])
    else (recordAssign [] allEnvVariables, [])
  | none => (recordAssign [] allEnvVariables, [])

/-- `typeof parsedData === 'object'` (JS: objects, arrays and `null`). -/
def jsTypeofObject : Json → Bool
  | .obj _ => true
  | .arr _ => true
  | .null => true
  | _ => false

/-- `parsedData !== null`. -/
def jsIsNotNull : Json → Bool
  | .null => false
  | _ => true

/-- `'k' in parsedData` for parsed JSON (own properties of an object). -/
def jsInProp (k : JStr) : Json → Bool
  | .obj ms => ms.any (fun m => m.1 = k)
  | _ => false

/-- The `hasEncryptionFields` conjunction from `isAlreadyEncrypted`. -/
def hasEncryptionFields (parsedData : Json) : Bool :=
  jsTypeofObject parsedData && jsIsNotNull parsedData &&
  jsInProp saltKey parsedData && jsInProp ivKey parsedData &&
  jsInProp cipherTextKey parsedData

/-- `isAlreadyEncrypted`: falsy values are not encrypted; the trimmed value
must look like a JSON object (`{`…`}`); `JSON.parse` runs on the untrimmed
value inside `try`/`catch`, a parse failure returning `false`; finally the
three encryption fields must be present. -/
def isAlreadyEncrypted (value : JStr) : Bool :=
  if value = [] then false
  else
    let trimmedValue := jsTrim value
    if ¬(jsStartsWith trimmedValue ['{'] = true ∧ jsEndsWithChar trimmedValue '}' = true) then
      false
    else
      match jsonParse value with
      | none => false
      | some parsedData => hasEncryptionFields parsedData

/-- The two possible results of `encryptIfNeeded`: the input string unchanged,
or a fresh `{ salt, iv, cipherText }` object. -/
inductive EncryptOutcome where
  | unchanged (value : JStr)
  | fresh (p : EncryptionParameters)
  deriving DecidableEq, Repr

/-- `encryptIfNeeded`: keep an already-encrypted value; otherwise encrypt it.
`rng idx` is the pair (salt bytes, IV bytes) the randomness source produces
for the `idx`-th encryption of the run; the returned counter points past the
randomness consumed. -/
def encryptIfNeeded (P : CryptoPrimitives) (rng : Nat → List Nat × List Nat) (idx : Nat)
    (value secretKey : JStr) : Except JsError (EncryptOutcome × Nat) :=
  if isAlreadyEncrypted value then .ok (.unchanged value, idx)
  else do
    let encryptedResult ← EncryptionService.encrypt P value secretKey (rng idx).1 (rng idx).2
    .ok (.fresh encryptedResult, idx + 1)

/-- `updateEnvironmentLines`: replace every line with the exact `KEY=` prefix;
if none matched, append `KEY=value` at the end. -/
def updateEnvironmentLines (existingLines : List JStr) (envVariable : JStr) (value : JStr) :
    List JStr :=
  let updatedLines := existingLines.map (fun line =>
    if jsStartsWith line (envVariable ++ ['=']) = true then envVariable ++ '=' :: value
    else line)
  if existingLines.any (fun line => jsStartsWith line (envVariable ++ ['='])) = true then
    updatedLines
  else updatedLines ++ [envVariable ++ '=' :: value]

/-- The loop body of `processVariablesForEncryption`: falsy values are
skipped; `encryptIfNeeded` runs on the trimmed value; a falsy result or a
result equal to the original value is skipped; otherwise the result is
JSON-serialized and the key's line replaced (counting one newly-encrypted
variable). -/
def processVariablesForEncryption (P : CryptoPrimitives) (rng : Nat → List Nat × List Nat)
    (secretKeyVariable : JStr) :
    List (JStr × JStr) → List JStr → Nat → Nat → Except JsError (List JStr × Nat × Nat)
  | [], updatedLines, encryptedCount, idx => .ok (updatedLines, encryptedCount, idx)
  | (key, value) :: restVars, updatedLines, encryptedCount, idx =>
    if value = [] then
      processVariablesForEncryption P rng secretKeyVariable restVars updatedLines
        encryptedCount idx
    else do
      let r ← encryptIfNeeded P rng idx (jsTrim value) secretKeyVariable
      match r.1 with
      | .unchanged s =>
        if s = [] ∨ s = value then
          processVariablesForEncryption P rng secretKeyVariable restVars updatedLines
            encryptedCount r.2
        else
          processVariablesForEncryption P rng secretKeyVariable restVars
            (updateEnvironmentLines updatedLines key (jsonQuote s)) (encryptedCount + 1) r.2
      | .fresh p =>
        processVariablesForEncryption P rng secretKeyVariable restVars
          (updateEnvironmentLines updatedLines key (jsonStringifyEncParams p))
          (encryptedCount + 1) r.2

/-- `encryptEnvVariables` up to (but not including) the file write: extract,
select, and process. Returns the updated lines and the newly-encrypted count. -/
def encryptEnvVariablesCore (P : CryptoPrimitives) (rng : Nat → List Nat × List Nat)
    (envFileLines : List JStr) (envVariables : Option (List JStr))
    (secretKeyVariable : JStr) : Except JsError (List JStr × Nat) := do
  let allEnvVariables := extractEnvironmentVariables envFileLines
  let variablesToEncrypt := (determineVariablesToEncrypt allEnvVariables envVariables).1
  let r ← processVariablesForEncryption P rng secretKeyVariable variablesToEncrypt
    envFileLines 0 0
  .ok (r.1, r.2.1)

/-- `encryptEnvVariables` with the file I/O explicit: the file content is read
and split on newlines; the single `FileManager.writeFile` call happens only
after all processing, so any processing error reaches the caller with the
file content untouched. `writeFile` itself rejects empty content (before
touching the file). On success the result is the newly-encrypted count. -/
def encryptEnvVariables (P : CryptoPrimitives) (rng : Nat → List Nat × List Nat)
    (content : JStr) (envVariables : Option (List JStr)) (secretKeyVariable : JStr) :
    Except JsError Nat × JStr :=
  let envFileLines := splitOnChar '\n' content
  match encryptEnvVariablesCore P rng envFileLines envVariables secretKeyVariable with
  | .error e => (.error e, content)
  | .ok (updatedLines, encryptedCount) =>
    let newContent := joinWith '\n' updatedLines
    if newContent = [] then (.error .fileWriteEmpty, content)
    else (.ok encryptedCount, newContent)

end EncryptionServiceUtils

/-! ## Record lemmas -/

namespace EncryptionServiceUtils

theorem recordGet_set (r : List (JStr × JStr)) (k v : JStr) (k' : JStr) :
    recordGet (recordSet r k v) k' = if k = k' then some v else recordGet r k' := by
  induction r with
  | nil =>
    by_cases h : k = k'
    · simp [recordSet, recordGet, List.find?, h]
    · simp [recordSet, recordGet, List.find?, h]
  | cons kv rest ih =>
    obtain ⟨k0, v0⟩ := kv
    by_cases h0 : k0 = k
    · subst h0
      by_cases h : k0 = k'
      · simp [recordSet, recordGet, List.find?, h]
      · simp [recordSet, recordGet, List.find?, h]
    · rw [show recordSet ((k0, v0) :: rest) k v = (k0, v0) :: recordSet rest k v by
        simp [recordSet, h0]]
      by_cases h1 : k0 = k'
      · subst h1
        have hkk : k ≠ k0 := fun e => h0 e.symm
        simp [recordGet, List.find?, hkk]
      · simp only [recordGet, List.find?] at ih ⊢
        simp only [decide_eq_false h1]
        exact ih

theorem recordSet_mem {r : List (JStr × JStr)} {k v : JStr} {x : JStr × JStr}
    (h : x ∈ recordSet r k v) : x ∈ r ∨ x = (k, v) := by
  induction r with
  | nil => simpa [recordSet] using h
  | cons kv rest ih =>
    obtain ⟨k0, v0⟩ := kv
    by_cases h0 : k0 = k
    · subst h0
      simp only [recordSet, if_pos rfl] at h
      rcases List.mem_cons.mp h with rfl | hm
      · exact Or.inr rfl
      · exact Or.inl (List.mem_cons_of_mem _ hm)
    · simp only [recordSet, if_neg h0] at h
      rcases List.mem_cons.mp h with rfl | hm
      · exact Or.inl (List.mem_cons_self _ _)
      · rcases ih hm with h1 | h1
        · exact Or.inl (List.mem_cons_of_mem _ h1)
        · exact Or.inr h1

theorem recordSet_keys_nodup {r : List (JStr × JStr)} (h : (r.map Prod.fst).Nodup)
    (k v : JStr) : ((recordSet r k v).map Prod.fst).Nodup := by
  induction r with
  | nil => simp [recordSet]
  | cons kv rest ih =>
    obtain ⟨k0, v0⟩ := kv
    simp only [List.map_cons, List.nodup_cons] at h
    by_cases h0 : k0 = k
    · subst h0
      rw [show recordSet ((k0, v0) :: rest) k0 v = (k0, v) :: rest by simp [recordSet]]
      simp only [List.map_cons, List.nodup_cons]
      exact h
    · rw [show recordSet ((k0, v0) :: rest) k v = (k0, v0) :: recordSet rest k v by
        simp [recordSet, h0]]
      simp only [List.map_cons, List.nodup_cons]
      refine ⟨fun hmem => ?_, ih h.2⟩
      obtain ⟨x, hx, hfst⟩ := List.mem_map.mp hmem
      rcases recordSet_mem hx with h1 | h1
      · refine h.1 ?_
        rw [← hfst]
        exact List.mem_map_of_mem Prod.fst h1
      · subst h1
        exact h0 hfst.symm

theorem recordSet_mem_of_mem {r : List (JStr × JStr)} {x : JStr × JStr} (hx : x ∈ r)
    (k v : JStr) (hne : x.1 ≠ k) : x ∈ recordSet r k v := by
  induction r with
  | nil => cases hx
  | cons kv rest ih =>
    obtain ⟨k0, v0⟩ := kv
    by_cases h0 : k0 = k
    · subst h0
      simp only [recordSet, if_pos rfl]
      rcases List.mem_cons.mp hx with rfl | hm
      · exact absurd rfl hne
      · exact List.mem_cons_of_mem _ hm
    · simp only [recordSet, if_neg h0]
      rcases List.mem_cons.mp hx with rfl | hm
      · exact List.mem_cons_self _ _
      · exact List.mem_cons_of_mem _ (ih hm)

theorem recordAssign_mem {src : List (JStr × JStr)} :
    ∀ {target : List (JStr × JStr)} {x : JStr × JStr},
      x ∈ recordAssign target src → x ∈ target ∨ x ∈ src := by
  induction src with
  | nil => intro target x h; exact Or.inl h
  | cons kv rest ih =>
    intro target x h
    rcases ih h with h1 | h1
    · rcases recordSet_mem h1 with h2 | h2
      · exact Or.inl h2
      · exact Or.inr (h2 ▸ List.mem_cons_self _ _)
    · exact Or.inr (List.mem_cons_of_mem _ h1)

theorem recordAssign_nil_self {r : List (JStr × JStr)} (h : (r.map Prod.fst).Nodup) :
    recordAssign [] r = r := by
  suffices h2 : ∀ acc : List (JStr × JStr),
      (∀ x ∈ acc, ∀ y ∈ r, x.1 ≠ y.1) → (r.map Prod.fst).Nodup →
      recordAssign acc r = acc ++ r by
    simpa using h2 [] (by simp) h
  clear h
  induction r with
  | nil => intro acc _ _; simp [recordAssign]
  | cons kv rest ih =>
    intro acc hdisj hnodup
    obtain ⟨k0, v0⟩ := kv
    simp only [List.map_cons, List.nodup_cons] at hnodup
    have hset : recordSet acc k0 v0 = acc ++ [(k0, v0)] := by
      clear ih hnodup
      induction acc with
      | nil => rfl
      | cons a t iha =>
        have ha : a.1 ≠ k0 := hdisj a (List.mem_cons_self _ _) (k0, v0) (List.mem_cons_self _ _)
        obtain ⟨a1, a2⟩ := a
        have ha' : a1 ≠ k0 := ha
        rw [show recordSet ((a1, a2) :: t) k0 v0 = (a1, a2) :: recordSet t k0 v0 by
          simp [recordSet, ha']]
        rw [iha (fun x hx y hy => hdisj x (List.mem_cons_of_mem _ hx) y hy)]
        rfl
    show recordAssign (recordSet acc k0 v0) rest = acc ++ (k0, v0) :: rest
    rw [hset, ih, List.append_assoc]
    · rfl
    · intro x hx y hy
      rcases List.mem_append.mp hx with h1 | h1
      · exact hdisj x h1 y (List.mem_cons_of_mem _ hy)
      · simp only [List.mem_singleton] at h1
        subst h1
        intro e
        refine hnodup.1 ?_
        have e' : k0 = y.1 := e
        rw [e']
        exact List.mem_map_of_mem Prod.fst hy
    · exact hnodup.2

theorem recordAssign_keys_nodup {src : List (JStr × JStr)} :
    ∀ {target : List (JStr × JStr)}, ((target.map Prod.fst).Nodup) →
      ((recordAssign target src).map Prod.fst).Nodup := by
  induction src with
  | nil => intro target h; exact h
  | cons kv rest ih => intro target h; exact ih (recordSet_keys_nodup h kv.1 kv.2)

end EncryptionServiceUtils

/-! ## String-level lemmas for the rewrite engine -/

theorem dropWhile_head_false {p : Char → Bool} {s : JStr} {c : Char}
    (h : (s.dropWhile p).head? = some c) : p c = false := by
  induction s with
  | nil => simp [List.dropWhile] at h
  | cons a t ih =>
    rw [List.dropWhile_cons] at h
    by_cases hp : p a
    · rw [if_pos hp] at h
      exact ih h
    · rw [if_neg hp] at h
      simp only [List.head?_cons, Option.some.injEq] at h
      subst h
      simpa using hp

theorem dropWhile_eq_self_of_head {p : Char → Bool} {s : JStr}
    (h : ∀ c, s.head? = some c → p c = false) : s.dropWhile p = s := by
  cases s with
  | nil => rfl
  | cons a t =>
    rw [List.dropWhile_cons, if_neg]
    simp [h a rfl]

theorem jsTrim_head? {s : JStr} {c : Char} (h : (jsTrim s).head? = some c) :
    jsWhitespaceChar c = false := by
  unfold jsTrim at h
  set A := s.dropWhile jsWhitespaceChar with hA
  have hsuf : A.reverse.dropWhile jsWhitespaceChar <:+ A.reverse :=
    List.dropWhile_suffix _
  obtain ⟨pre, hpre⟩ := hsuf
  have : (A.reverse.dropWhile jsWhitespaceChar).reverse <+: A := by
    have := congrArg List.reverse hpre
    simp only [List.reverse_append, List.reverse_reverse] at this
    exact ⟨pre.reverse, this⟩
  obtain ⟨tail, htail⟩ := this
  have hh : A.head? = some c := by
    rw [← htail, List.head?_append, h]
    rfl
  exact dropWhile_head_false hh

theorem jsTrim_getLast? {s : JStr} {c : Char} (h : (jsTrim s).getLast? = some c) :
    jsWhitespaceChar c = false := by
  unfold jsTrim at h
  rw [List.getLast?_reverse] at h
  exact dropWhile_head_false h

theorem jsTrim_eq_self {s : JStr}
    (h1 : ∀ c, s.head? = some c → jsWhitespaceChar c = false)
    (h2 : ∀ c, s.getLast? = some c → jsWhitespaceChar c = false) : jsTrim s = s := by
  unfold jsTrim
  rw [dropWhile_eq_self_of_head h1]
  rw [dropWhile_eq_self_of_head (fun c hc => h2 c (by rwa [List.head?_reverse] at hc))]
  exact List.reverse_reverse s

theorem jsTrim_idem (s : JStr) : jsTrim (jsTrim s) = jsTrim s :=
  jsTrim_eq_self (fun _ h => jsTrim_head? h) (fun _ h => jsTrim_getLast? h)

theorem jsTrim_mem {s : JStr} {c : Char} (h : c ∈ jsTrim s) : c ∈ s := by
  unfold jsTrim at h
  rw [List.mem_reverse] at h
  have h2 := (List.dropWhile_suffix (l := (s.dropWhile jsWhitespaceChar).reverse)
    jsWhitespaceChar).mem h
  rw [List.mem_reverse] at h2
  exact (List.dropWhile_suffix (l := s) jsWhitespaceChar).mem h2

theorem splitOnChar_not_mem {sep : Char} {s : JStr} :
    ∀ l ∈ splitOnChar sep s, sep ∉ l := by
  induction s with
  | nil =>
    intro l hl
    simp only [splitOnChar, List.mem_singleton] at hl
    subst hl
    simp
  | cons c cs ih =>
    intro l hl
    simp only [splitOnChar] at hl
    by_cases hc : c = sep
    · rw [if_pos hc] at hl
      rcases List.mem_cons.mp hl with rfl | hm
      · simp
      · exact ih l hm
    · rw [if_neg hc] at hl
      cases hsp : splitOnChar sep cs with
      | nil => exact absurd hsp (splitOnChar_ne_nil sep cs)
      | cons r rs =>
        rw [hsp] at hl
        rcases List.mem_cons.mp hl with rfl | hm
        · intro hmem
          rcases List.mem_cons.mp hmem with rfl | hm2
          · exact hc rfl
          · exact ih r (hsp ▸ List.mem_cons_self r rs) hm2
        · exact ih l (hsp ▸ List.mem_cons_of_mem r hm)

theorem splitOnChar_mem_subset {sep : Char} {s : JStr} :
    ∀ l ∈ splitOnChar sep s, ∀ c ∈ l, c ∈ s := by
  induction s with
  | nil =>
    intro l hl c hc
    simp only [splitOnChar, List.mem_singleton] at hl
    subst hl
    cases hc
  | cons a cs ih =>
    intro l hl c hc
    simp only [splitOnChar] at hl
    by_cases ha : a = sep
    · rw [if_pos ha] at hl
      rcases List.mem_cons.mp hl with rfl | hm
      · cases hc
      · exact List.mem_cons_of_mem a (ih l hm c hc)
    · rw [if_neg ha] at hl
      cases hsp : splitOnChar sep cs with
      | nil => exact absurd hsp (splitOnChar_ne_nil sep cs)
      | cons r rs =>
        rw [hsp] at hl
        rcases List.mem_cons.mp hl with rfl | hm
        · rcases List.mem_cons.mp hc with rfl | hm2
          · exact List.mem_cons_self c cs
          · exact List.mem_cons_of_mem a (ih r (hsp ▸ List.mem_cons_self r rs) c hm2)
        · exact List.mem_cons_of_mem a (ih l (hsp ▸ List.mem_cons_of_mem r hm) c hc)

theorem splitOnChar_append_sep {sep : Char} {a : JStr} (ha : sep ∉ a) (b : JStr) :
    splitOnChar sep (a ++ sep :: b) = a :: splitOnChar sep b := by
  induction a with
  | nil => simp [splitOnChar]
  | cons c cs ih =>
    have hc : c ≠ sep := fun e => ha (e ▸ List.mem_cons_self c cs)
    have hcs : sep ∉ cs := fun h => ha (List.mem_cons_of_mem c h)
    rw [List.cons_append]
    simp only [splitOnChar, if_neg hc, ih hcs]

theorem mem_of_getLast?_eq {α : Type} {l : List α} {a : α} (h : l.getLast? = some a) :
    a ∈ l := by
  cases l with
  | nil => cases h
  | cons x t =>
    rw [List.getLast?_eq_getLast _ (by simp)] at h
    simp only [Option.some.injEq] at h
    rw [← h]
    exact List.getLast_mem _

theorem getLast?_suffix_eq {α : Type} {l s : List α} (hsuf : s <:+ l) (hne : s ≠ []) :
    l.getLast? = s.getLast? := by
  obtain ⟨pre, hpre⟩ := hsuf
  rw [← hpre, List.getLast?_append]
  cases s with
  | nil => exact absurd rfl hne
  | cons a t =>
    rw [List.getLast?_eq_getLast _ (by simp)]
    rfl

theorem jsTrim_ne_nil_of_getLast {s : JStr} {c : Char} (hl : s.getLast? = some c)
    (hc : jsWhitespaceChar c = false) : jsTrim s ≠ [] := by
  intro hcon
  unfold jsTrim at hcon
  have hB : (s.dropWhile jsWhitespaceChar).reverse.dropWhile jsWhitespaceChar = [] := by
    have := congrArg List.reverse hcon
    simpa using this
  have hallB := List.dropWhile_eq_nil_iff.mp hB
  cases hA : s.dropWhile jsWhitespaceChar with
  | nil =>
    have halls := List.dropWhile_eq_nil_iff.mp hA
    have := halls c (mem_of_getLast?_eq hl)
    rw [hc] at this
    cases this
  | cons a t =>
    have hlast : (a :: t).getLast? = some c := by
      have := getLast?_suffix_eq (hA ▸ List.dropWhile_suffix (l := s) jsWhitespaceChar)
        (by simp)
      rw [← this, hl]
    have hmem : c ∈ (a :: t).reverse := List.mem_reverse.mpr (mem_of_getLast?_eq hlast)
    have := hallB c (hA ▸ hmem)
    rw [hc] at this
    cases this

theorem jsTrim_ne_nil_of_head {s : JStr} {c : Char} (hl : s.head? = some c)
    (hc : jsWhitespaceChar c = false) : jsTrim s ≠ [] := by
  intro hcon
  unfold jsTrim at hcon
  have hds : s.dropWhile jsWhitespaceChar = s :=
    dropWhile_eq_self_of_head (fun d hd => by rw [hl] at hd; cases hd; exact hc)
  rw [hds] at hcon
  have hB : s.reverse.dropWhile jsWhitespaceChar = [] := by
    have := congrArg List.reverse hcon
    simpa using this
  have := List.dropWhile_eq_nil_iff.mp hB c (List.mem_reverse.mpr (by
    cases s with
    | nil => cases hl
    | cons a t => rw [List.head?_cons, Option.some.injEq] at hl; subst hl; simp))
  rw [hc] at this
  cases this

namespace EncryptionServiceUtils

/-- Decomposition of a successfully parsed entry line. -/
theorem parseEnvironmentLine_eq {line k v : JStr}
    (h : parseEnvironmentLine line = some (k, v)) :
    ∃ key value, jsTrim line = key ++ '=' :: value ∧ '=' ∉ key ∧ key ≠ [] ∧ value ≠ [] ∧
      k = jsTrim key ∧ v = jsTrim value := by
  simp only [parseEnvironmentLine] at h
  split at h
  · cases h
  · cases hsp : splitOnChar '=' (jsTrim line) with
    | nil => rw [hsp] at h; cases h
    | cons key valueParts =>
      rw [hsp] at h
      dsimp only at h
      split at h
      · rename_i hkv
        simp only [Option.some.injEq, Prod.mk.injEq] at h
        obtain ⟨hk, hv⟩ := h
        refine ⟨key, joinWith '=' valueParts, ?_, ?_, hkv.1, hkv.2, hk.symm, hv.symm⟩
        · cases valueParts with
          | nil => exact absurd rfl hkv.2
          | cons p ps =>
            have hj := joinWith_splitOnChar '=' (jsTrim line)
            rw [hsp] at hj
            rw [← hj]
            rfl
        · exact splitOnChar_not_mem key (hsp ▸ List.mem_cons_self key valueParts)
      · cases h

/-- The structural facts about a parsed entry used throughout: nonempty,
trim-stable key and value, the key is `=`-free and starts with a
non-whitespace character, and both draw their characters from the line. -/
theorem parseEnvironmentLine_facts {line k v : JStr}
    (h : parseEnvironmentLine line = some (k, v)) :
    k ≠ [] ∧ v ≠ [] ∧ jsTrim k = k ∧ jsTrim v = v ∧ '=' ∉ k ∧
    (∀ c, k.head? = some c → jsWhitespaceChar c = false) ∧
    (∀ c ∈ k, c ∈ line) ∧ (∀ c ∈ v, c ∈ line) := by
  obtain ⟨key, value, htrim, hknoeq, hkne, hvne, hk, hv⟩ := parseEnvironmentLine_eq h
  subst hk
  subst hv
  obtain ⟨kc, hkc⟩ : ∃ c, key.head? = some c := by
    cases key with
    | nil => exact absurd rfl hkne
    | cons a t => exact ⟨a, rfl⟩
  obtain ⟨vc, hvc⟩ : ∃ c, value.getLast? = some c := by
    cases value with
    | nil => exact absurd rfl hvne
    | cons a t => exact ⟨_, List.getLast?_eq_getLast _ (by simp)⟩
  have hkcw : jsWhitespaceChar kc = false := by
    refine jsTrim_head? (s := line) ?_
    rw [htrim, List.head?_append, hkc]
    rfl
  have hvcw : jsWhitespaceChar vc = false := by
    refine jsTrim_getLast? (s := line) ?_
    rw [htrim, List.getLast?_append]
    cases value with
    | nil => exact absurd rfl hvne
    | cons a t =>
      rw [show ('=' :: a :: t).getLast? = (a :: t).getLast? by rfl, hvc]
      rfl
  refine ⟨jsTrim_ne_nil_of_head hkc hkcw, jsTrim_ne_nil_of_getLast hvc hvcw,
    jsTrim_idem key, jsTrim_idem value, ?_, ?_, ?_, ?_⟩
  · intro hmem
    exact hknoeq (jsTrim_mem hmem)
  · intro c hc
    exact jsTrim_head? hc
  · intro c hc
    have h2 : c ∈ jsTrim line := by
      rw [htrim]
      exact List.mem_append_left _ (jsTrim_mem hc)
    exact jsTrim_mem h2
  · intro c hc
    have h2 : c ∈ jsTrim line := by
      rw [htrim]
      exact List.mem_append_right _ (List.mem_cons_of_mem _ (jsTrim_mem hc))
    exact jsTrim_mem h2

end EncryptionServiceUtils

namespace EncryptionServiceUtils

/-- Parsing a rewritten line `KEY=J` (for a well-shaped key and a value that
is trim-stable and nonempty with a non-whitespace final character) recovers
exactly `(KEY, J)`. -/
theorem parseEnvironmentLine_keyval {k J : JStr} (hkne : k ≠ []) (hknoeq : '=' ∉ k)
    (hktrim : jsTrim k = k)
    (hkhead : ∀ c, k.head? = some c → jsWhitespaceChar c = false)
    (hJne : J ≠ []) (hJtrim : jsTrim J = J)
    (hJlast : ∀ c, J.getLast? = some c → jsWhitespaceChar c = false) :
    parseEnvironmentLine (k ++ '=' :: J) = some (k, J) := by
  have hJlast' : ('=' :: J).getLast? = J.getLast? := by
    cases J with
    | nil => exact absurd rfl hJne
    | cons a t => rfl
  have hline_trim : jsTrim (k ++ '=' :: J) = k ++ '=' :: J := by
    refine jsTrim_eq_self ?_ ?_
    · intro c hc
      rw [List.head?_append] at hc
      cases k with
      | nil => exact absurd rfl hkne
      | cons a t =>
        simp only [List.head?_cons] at hc
        have : some a = some c := hc
        cases this
        exact hkhead c rfl
    · intro c hc
      rw [List.getLast?_append, hJlast'] at hc
      cases hJl : J.getLast? with
      | none =>
        cases J with
        | nil => exact absurd rfl hJne
        | cons a t => rw [List.getLast?_eq_getLast _ (by simp)] at hJl; cases hJl
      | some d =>
        rw [hJl] at hc
        have : some d = some c := hc
        cases this
        exact hJlast c hJl
  simp only [parseEnvironmentLine, hline_trim]
  rw [if_neg]
  · rw [splitOnChar_append_sep hknoeq]
    dsimp only
    rw [joinWith_splitOnChar]
    rw [if_pos ⟨hkne, hJne⟩, hktrim, hJtrim]
  · intro hcon
    rcases hcon with hcon | hcon
    · cases k with
      | nil => exact hkne rfl
      | cons a t => cases hcon
    · rw [List.contains_eq_any_beq] at hcon
      have : ('=' == '=') = true := by decide
      have hmem : (k ++ '=' :: J).any (fun x => '=' == x) = true := by
        rw [List.any_eq_true]
        exact ⟨'=', List.mem_append_right _ (List.mem_cons_self _ _), by decide⟩
      rw [hcon] at hmem
      cases hmem

end EncryptionServiceUtils

/-! ## Shape of the serialized encryption parameters -/

theorem jsonStringifyEncParams_head (p : EncryptionParameters) :
    (jsonStringifyEncParams p).head? = some '{' := by
  simp [jsonStringifyEncParams]

theorem jsonStringifyEncParams_getLast (p : EncryptionParameters) :
    (jsonStringifyEncParams p).getLast? = some '}' := by
  unfold jsonStringifyEncParams
  rw [List.getLast?_append]
  rfl

theorem jsonStringifyEncParams_ne_nil (p : EncryptionParameters) :
    jsonStringifyEncParams p ≠ [] := by
  intro h
  have := jsonStringifyEncParams_head p
  rw [h] at this
  cases this

theorem jsonStringifyEncParams_trim (p : EncryptionParameters) :
    jsTrim (jsonStringifyEncParams p) = jsonStringifyEncParams p := by
  refine jsTrim_eq_self ?_ ?_
  · intro c hc
    rw [jsonStringifyEncParams_head p] at hc
    cases hc
    decide
  · intro c hc
    rw [jsonStringifyEncParams_getLast p] at hc
    cases hc
    decide

theorem jsonStringifyEncParams_getLast_not_ws (p : EncryptionParameters) :
    ∀ c, (jsonStringifyEncParams p).getLast? = some c → jsWhitespaceChar c = false := by
  intro c hc
  rw [jsonStringifyEncParams_getLast p] at hc
  cases hc
  decide

theorem b64encode_no_newline (l : List Nat) : '\n' ∉ b64encode l := by
  intro h
  rcases b64encode_chars l '\n' h with hm | hm
  · revert hm
    decide
  · cases hm

/-- The serialized wire string contains no newline when its three fields are
base64 outputs — so rewritten lines survive the join/split file round trip. -/
theorem jsonStringifyEncParams_b64_no_newline (a b d : List Nat) :
    '\n' ∉ jsonStringifyEncParams ⟨b64encode a, b64encode b, b64encode d⟩ := by
  intro hmem
  unfold jsonStringifyEncParams at hmem
  simp only at hmem
  rw [jsonQuote_safe (b64encode_safe a), jsonQuote_safe (b64encode_safe b),
    jsonQuote_safe (b64encode_safe d),
    jsonQuote_safe (s := saltKey) (by decide), jsonQuote_safe (s := ivKey) (by decide),
    jsonQuote_safe (s := cipherTextKey) (by decide)] at hmem
  simp only [List.mem_append, List.mem_cons, List.mem_singleton, List.not_mem_nil,
    or_false] at hmem
  have hna := b64encode_no_newline a
  have hnb := b64encode_no_newline b
  have hnd := b64encode_no_newline d
  have hk1 : '\n' ∉ saltKey := by decide
  have hk2 : '\n' ∉ ivKey := by decide
  have hk3 : '\n' ∉ cipherTextKey := by decide
  have hc1 : ¬('\n' = '{') := by decide
  have hc2 : ¬('\n' = '}') := by decide
  have hc3 : ¬('\n' = '"') := by decide
  have hc4 : ¬('\n' = ':') := by decide
  have hc5 : ¬('\n' = ',') := by decide
  tauto

namespace EncryptionServiceUtils

/-- A freshly serialized `{salt, iv, cipherText}` value is judged already
encrypted (the idempotence invariant `isEncrypted(encrypt(v,k).serialized)`). -/
theorem isAlreadyEncrypted_stringify (p : EncryptionParameters)
    (hs : ∀ c ∈ p.salt, jsonSafeChar c = true)
    (hi : ∀ c ∈ p.iv, jsonSafeChar c = true)
    (hc : ∀ c ∈ p.cipherText, jsonSafeChar c = true) :
    isAlreadyEncrypted (jsonStringifyEncParams p) = true := by
  unfold isAlreadyEncrypted
  rw [if_neg (by exact jsonStringifyEncParams_ne_nil p)]
  simp only [jsonStringifyEncParams_trim p]
  rw [if_neg, jsonParse_encParams p hs hi hc]
  · simp +decide [hasEncryptionFields, jsInProp, jsTypeofObject, jsIsNotNull]
  · rw [not_not]
    constructor
    · have := jsonStringifyEncParams_head p
      unfold jsonStringifyEncParams at this ⊢
      cases hsp : ('{' :: jsonQuote saltKey) ++ (':' :: jsonQuote p.salt) ++
          (',' :: jsonQuote ivKey) ++ (':' :: jsonQuote p.iv) ++
          (',' :: jsonQuote cipherTextKey) ++ (':' :: jsonQuote p.cipherText) ++ ['}'] with
      | nil => rw [hsp] at this; cases this
      | cons a t =>
        rw [hsp] at this
        simp only [List.head?_cons, Option.some.injEq] at this
        subst this
        simp [jsStartsWith, List.isPrefixOf]
    · simp only [jsEndsWithChar, jsonStringifyEncParams_getLast p]
      decide

/-- Every pair of the extracted record was parsed from some line. -/
theorem extract_mem {lines : List JStr} {x : JStr × JStr}
    (h : x ∈ extractEnvironmentVariables lines) :
    ∃ line ∈ lines, parseEnvironmentLine line = some x := by
  suffices haux : ∀ acc : List (JStr × JStr), x ∈ lines.foldl
      (fun vars line =>
        match parseEnvironmentLine line with
        | some kv => recordSet vars kv.1 kv.2
        | none => vars) acc →
      x ∈ acc ∨ ∃ line ∈ lines, parseEnvironmentLine line = some x by
    rcases haux [] h with h1 | h1
    · cases h1
    · exact h1
  clear h
  induction lines with
  | nil => intro acc h; exact Or.inl h
  | cons line rest ih =>
    intro acc h
    simp only [List.foldl_cons] at h
    rcases ih _ h with h1 | h1
    · cases hp : parseEnvironmentLine line with
      | none =>
        rw [hp] at h1
        exact Or.inl h1
      | some kv =>
        rw [hp] at h1
        rcases recordSet_mem h1 with h2 | h2
        · exact Or.inl h2
        · subst h2
          obtain ⟨k2, v2⟩ := kv
          exact Or.inr ⟨line, List.mem_cons_self _ _, hp⟩
    · obtain ⟨l2, hl2, hp2⟩ := h1
      exact Or.inr ⟨l2, List.mem_cons_of_mem _ hl2, hp2⟩

theorem recordSet_keys_mem (r : List (JStr × JStr)) (k v : JStr) :
    k ∈ (recordSet r k v).map Prod.fst := by
  induction r with
  | nil => simp [recordSet]
  | cons kv rest ih =>
    obtain ⟨k0, v0⟩ := kv
    by_cases h0 : k0 = k
    · subst h0
      rw [show recordSet ((k0, v0) :: rest) k0 v = (k0, v) :: rest by simp [recordSet]]
      simp
    · rw [show recordSet ((k0, v0) :: rest) k v = (k0, v0) :: recordSet rest k v by
        simp [recordSet, h0]]
      simp only [List.map_cons, List.mem_cons]
      exact Or.inr ih

theorem recordSet_keys_superset {r : List (JStr × JStr)} {k' : JStr}
    (h : k' ∈ r.map Prod.fst) (k v : JStr) : k' ∈ (recordSet r k v).map Prod.fst := by
  induction r with
  | nil => cases h
  | cons kv rest ih =>
    obtain ⟨k0, v0⟩ := kv
    simp only [List.map_cons, List.mem_cons] at h
    by_cases h0 : k0 = k
    · subst h0
      rw [show recordSet ((k0, v0) :: rest) k0 v = (k0, v) :: rest by simp [recordSet]]
      simp only [List.map_cons, List.mem_cons]
      exact h
    · rw [show recordSet ((k0, v0) :: rest) k v = (k0, v0) :: recordSet rest k v by
        simp [recordSet, h0]]
      simp only [List.map_cons, List.mem_cons]
      rcases h with h | h
      · exact Or.inl h
      · exact Or.inr (ih h)

/-- Every key parsed from some line appears in the extracted record. -/
theorem extract_keys_mem {lines : List JStr} {line k v : JStr} (hline : line ∈ lines)
    (h : parseEnvironmentLine line = some (k, v)) :
    ∃ v', (k, v') ∈ extractEnvironmentVariables lines := by
  suffices haux : ∀ acc : List (JStr × JStr),
      (k ∈ acc.map Prod.fst ∨ line ∈ lines) →
      k ∈ (lines.foldl
        (fun vars l =>
          match parseEnvironmentLine l with
          | some kv => recordSet vars kv.1 kv.2
          | none => vars) acc).map Prod.fst by
    have := haux [] (Or.inr hline)
    obtain ⟨x, hx, hfst⟩ := List.mem_map.mp this
    exact ⟨x.2, by rwa [show (k, x.2) = x by rw [← hfst]]⟩
  clear hline
  induction lines with
  | nil =>
    intro acc hacc
    rcases hacc with h1 | h1
    · exact h1
    · cases h1
  | cons l rest ih =>
    intro acc hacc
    simp only [List.foldl_cons]
    rcases hacc with h1 | h1
    · refine ih _ (Or.inl ?_)
      cases hp : parseEnvironmentLine l with
      | none => exact h1
      | some kv => exact recordSet_keys_superset h1 kv.1 kv.2
    · rcases List.mem_cons.mp h1 with rfl | h2
      · refine ih _ (Or.inl ?_)
        rw [h]
        exact recordSet_keys_mem _ _ _
      · exact ih _ (Or.inr h2)

/-- The extracted record has pairwise distinct keys. -/
theorem extract_keys_nodup (lines : List JStr) :
    ((extractEnvironmentVariables lines).map Prod.fst).Nodup := by
  suffices haux : ∀ acc : List (JStr × JStr), (acc.map Prod.fst).Nodup →
      ((lines.foldl
        (fun vars l =>
          match parseEnvironmentLine l with
          | some kv => recordSet vars kv.1 kv.2
          | none => vars) acc).map Prod.fst).Nodup from haux [] (by simp)
  induction lines with
  | nil => intro acc h; exact h
  | cons l rest ih =>
    intro acc h
    simp only [List.foldl_cons]
    refine ih _ ?_
    cases hp : parseEnvironmentLine l with
    | none => exact h
    | some kv => exact recordSet_keys_nodup h kv.1 kv.2

end EncryptionServiceUtils

namespace EncryptionServiceUtils

/-- The parsed pairs of a line list, in order. -/
def parsedPairs (lines : List JStr) : List (JStr × JStr) :=
  lines.filterMap parseEnvironmentLine

/-- The extracted record reads as the value of the last line parsing to the
key (JS object assignment: last write wins). -/
theorem extract_recordGet (lines : List JStr) (k : JStr) :
    recordGet (extractEnvironmentVariables lines) k =
      (((parsedPairs lines).filter (fun kv => kv.1 = k)).getLast?).map (fun kv => kv.2) := by
  suffices haux : ∀ acc : List (JStr × JStr),
      recordGet (lines.foldl
        (fun vars l =>
          match parseEnvironmentLine l with
          | some kv => recordSet vars kv.1 kv.2
          | none => vars) acc) k =
      match ((parsedPairs lines).filter (fun kv => kv.1 = k)).getLast? with
      | some kv => some kv.2
      | none => recordGet acc k by
    rw [show extractEnvironmentVariables lines = lines.foldl
      (fun vars l =>
        match parseEnvironmentLine l with
        | some kv => recordSet vars kv.1 kv.2
        | none => vars) [] from rfl, haux []]
    cases ((parsedPairs lines).filter (fun kv => kv.1 = k)).getLast? with
    | none => simp [recordGet, List.find?]
    | some kv => rfl
  induction lines with
  | nil =>
    intro acc
    simp [parsedPairs]
  | cons l rest ih =>
    intro acc
    have ih2 := ih
    simp only [parsedPairs] at ih2
    simp only [List.foldl_cons, parsedPairs, List.filterMap_cons]
    cases hp : parseEnvironmentLine l with
    | none => exact ih2 acc
    | some kv =>
      obtain ⟨k0, v0⟩ := kv
      by_cases h0 : k0 = k
      · subst h0
        rw [show List.filter (fun kv => decide (kv.1 = k0)) ((k0, v0) ::
            List.filterMap parseEnvironmentLine rest) =
          (k0, v0) :: List.filter (fun kv => decide (kv.1 = k0))
            (List.filterMap parseEnvironmentLine rest) by simp [List.filter_cons]]
        rw [ih2 (recordSet acc k0 v0)]
        cases hgl : (List.filter (fun kv => decide (kv.1 = k0))
            (List.filterMap parseEnvironmentLine rest)).getLast? with
        | some kv2 =>
          have hcons : ((k0, v0) :: List.filter (fun kv => decide (kv.1 = k0))
              (List.filterMap parseEnvironmentLine rest)).getLast? = some kv2 := by
            rw [getLast?_suffix_eq (l := (k0, v0) :: List.filter
                (fun kv => decide (kv.1 = k0)) (List.filterMap parseEnvironmentLine rest))
              ⟨[(k0, v0)], rfl⟩ (by intro hnil; rw [hnil] at hgl; cases hgl)]
            exact hgl
          rw [hcons]
        | none =>
          have hnil : List.filter (fun kv => decide (kv.1 = k0))
              (List.filterMap parseEnvironmentLine rest) = [] := by
            cases hfl : List.filter (fun kv => decide (kv.1 = k0))
                (List.filterMap parseEnvironmentLine rest) with
            | nil => rfl
            | cons a t =>
              rw [hfl, List.getLast?_eq_getLast _ (by simp)] at hgl
              cases hgl
          rw [hnil]
          rw [show ([(k0, v0)] : List (JStr × JStr)).getLast? = some (k0, v0) from rfl]
          rw [recordGet_set]
          rw [if_pos rfl]
      · rw [show List.filter (fun kv => decide (kv.1 = k)) ((k0, v0) ::
            List.filterMap parseEnvironmentLine rest) =
          List.filter (fun kv => decide (kv.1 = k))
            (List.filterMap parseEnvironmentLine rest) by simp [List.filter_cons, h0]]
        rw [ih2 (recordSet acc k0 v0)]
        cases (List.filter (fun kv => decide (kv.1 = k))
            (List.filterMap parseEnvironmentLine rest)).getLast? with
        | some kv2 => rfl
        | none =>
          rw [recordGet_set]
          rw [if_neg h0]

end EncryptionServiceUtils

namespace EncryptionServiceUtils

/-- The exact-prefix test `line.startsWith(envVariable + '=')` of the updater. -/
def matchKey (k line : JStr) : Bool := jsStartsWith line (k ++ ['='])

theorem keyPrefixInj : ∀ {k k' : JStr}, (k ++ ['=']) <+: (k' ++ ['=']) →
    '=' ∉ k → '=' ∉ k' → k = k'
  | [], [], _, _, _ => rfl
  | [], c' :: t', h, _, hk' => by
    rw [List.nil_append, show (c' :: t') ++ ['='] = c' :: (t' ++ ['=']) from rfl,
      List.cons_prefix_cons] at h
    exact absurd (h.1 ▸ List.mem_cons_self c' t') hk'
  | c :: t, [], h, hk, _ => by
    rw [List.nil_append, show (c :: t) ++ ['='] = c :: (t ++ ['=']) from rfl,
      List.cons_prefix_cons] at h
    exact absurd (h.1 ▸ List.mem_cons_self c t) hk
  | c :: t, c' :: t', h, hk, hk' => by
    rw [show (c :: t) ++ ['='] = c :: (t ++ ['=']) from rfl,
      show (c' :: t') ++ ['='] = c' :: (t' ++ ['=']) from rfl,
      List.cons_prefix_cons] at h
    have := keyPrefixInj h.2 (fun hm => hk (List.mem_cons_of_mem c hm))
      (fun hm => hk' (List.mem_cons_of_mem c' hm))
    rw [h.1, this]

/-- Two `=`-free keys whose `KEY=` prefixes both match one line are equal. -/
theorem key_prefix_unique {k k' line : JStr} (hk : '=' ∉ k) (hk' : '=' ∉ k')
    (h1 : matchKey k line = true) (h2 : matchKey k' line = true) : k = k' := by
  rw [matchKey, jsStartsWith, List.isPrefixOf_iff_prefix] at h1 h2
  rcases List.prefix_or_prefix_of_prefix h1 h2 with h | h
  · exact keyPrefixInj h hk hk'
  · exact (keyPrefixInj h hk' hk).symm

/-- A rewritten line `k=J` matches no other key's `KEY=` prefix. -/
theorem matchKey_rewritten {k k' J : JStr} (hk : '=' ∉ k) (hk' : '=' ∉ k')
    (hne : k' ≠ k) : matchKey k' (k ++ '=' :: J) = false := by
  by_contra hcon
  rw [Bool.not_eq_false] at hcon
  have hself : matchKey k (k ++ '=' :: J) = true := by
    rw [matchKey, jsStartsWith, List.isPrefixOf_iff_prefix,
      show k ++ '=' :: J = (k ++ ['=']) ++ J by simp]
    exact List.prefix_append _ _
  exact hne (key_prefix_unique hk' hk hcon hself)

/-- A line headed by whitespace matches no key whose head is not whitespace. -/
theorem matchKey_ws_head {k line : JStr} {w : Char} (hline : line.head? = some w)
    (hw : jsWhitespaceChar w = true)
    (hk : ∀ c, k.head? = some c → jsWhitespaceChar c = false) :
    matchKey k line = false := by
  by_contra hcon
  rw [Bool.not_eq_false, matchKey, jsStartsWith, List.isPrefixOf_iff_prefix] at hcon
  cases k with
  | nil =>
    obtain ⟨t, ht⟩ := hcon
    rw [← ht] at hline
    have hline2 : some '=' = some w := hline
    rw [Option.some.injEq] at hline2
    rw [← hline2] at hw
    revert hw
    decide
  | cons c cs =>
    rw [show (c :: cs) ++ ['='] = c :: (cs ++ ['=']) from rfl] at hcon
    cases line with
    | nil => exact absurd hcon.length_le (by simp)
    | cons a t =>
      rw [List.cons_prefix_cons] at hcon
      rw [List.head?_cons, Option.some.injEq] at hline
      subst hline
      rw [← hcon.1] at hw
      rw [hk c rfl] at hw
      cases hw

/-- Sequential application of per-line replacements. -/
def lineFold (line : JStr) (encs : List (JStr × JStr)) : JStr :=
  encs.foldl (fun cur kJ => if matchKey kJ.1 cur = true then kJ.1 ++ '=' :: kJ.2 else cur)
    line

theorem lineFold_nil (line : JStr) : lineFold line [] = line := rfl

theorem lineFold_cons (line : JStr) (kJ : JStr × JStr) (rest : List (JStr × JStr)) :
    lineFold line (kJ :: rest) =
      lineFold (if matchKey kJ.1 line = true then kJ.1 ++ '=' :: kJ.2 else line) rest := rfl

theorem lineFold_dichotomy (line : JStr) (encs : List (JStr × JStr)) :
    lineFold line encs = line ∨ ∃ kJ ∈ encs, lineFold line encs = kJ.1 ++ '=' :: kJ.2 := by
  induction encs generalizing line with
  | nil => exact Or.inl rfl
  | cons kJ rest ih =>
    rw [lineFold_cons]
    by_cases hm : matchKey kJ.1 line = true
    · rw [if_pos hm]
      rcases ih (kJ.1 ++ '=' :: kJ.2) with h | ⟨kJ2, hmem, heq⟩
      · exact Or.inr ⟨kJ, List.mem_cons_self _ _, h⟩
      · exact Or.inr ⟨kJ2, List.mem_cons_of_mem _ hmem, heq⟩
    · rw [if_neg hm]
      rcases ih line with h | ⟨kJ2, hmem, heq⟩
      · exact Or.inl h
      · exact Or.inr ⟨kJ2, List.mem_cons_of_mem _ hmem, heq⟩

theorem lineFold_id {line : JStr} {encs : List (JStr × JStr)}
    (h : ∀ kJ ∈ encs, matchKey kJ.1 line = false) : lineFold line encs = line := by
  induction encs with
  | nil => rfl
  | cons kJ rest ih =>
    rw [lineFold_cons, if_neg (by rw [h kJ (List.mem_cons_self _ _)]; simp)]
    exact ih (fun kJ2 hm => h kJ2 (List.mem_cons_of_mem _ hm))

theorem lineFold_changed {line : JStr} {encs : List (JStr × JStr)}
    (h : lineFold line encs ≠ line) : ∃ kJ ∈ encs, matchKey kJ.1 line = true := by
  by_contra hcon
  push_neg at hcon
  exact h (lineFold_id (fun kJ hm => by
    have := hcon kJ hm
    simpa using this))

theorem lineFold_replaces {line : JStr} {encs : List (JStr × JStr)} {k J : JStr}
    (hmem : (k, J) ∈ encs) (hnodup : (encs.map Prod.fst).Nodup)
    (hW : ∀ kJ ∈ encs, '=' ∉ kJ.1) (hm : matchKey k line = true) :
    lineFold line encs = k ++ '=' :: J := by
  induction encs generalizing line with
  | nil => cases hmem
  | cons kJ0 rest ih =>
    simp only [List.map_cons, List.nodup_cons] at hnodup
    rcases List.mem_cons.mp hmem with rfl | hmem2
    · rw [lineFold_cons, if_pos hm]
      refine lineFold_id (fun kJ2 hm2 => ?_)
      refine matchKey_rewritten (hW (k, J) (List.mem_cons_self _ _)) 
        (hW kJ2 (List.mem_cons_of_mem _ hm2)) ?_
      intro he
      exact hnodup.1 (he ▸ List.mem_map_of_mem Prod.fst hm2)
    · have hk0ne : kJ0.1 ≠ k := by
        intro he
        refine hnodup.1 ?_
        rw [he]
        exact List.mem_map_of_mem Prod.fst hmem2
      have hm0 : matchKey kJ0.1 line = false := by
        by_contra hcon
        rw [Bool.not_eq_false] at hcon
        exact hk0ne (key_prefix_unique (hW kJ0 (List.mem_cons_self _ _))
          (hW (k, J) (List.mem_cons_of_mem _ hmem2)) hcon hm)
      rw [lineFold_cons, if_neg (by rw [hm0]; simp)]
      exact ih hmem2 hnodup.2 (fun kJ2 hm2 => hW kJ2 (List.mem_cons_of_mem _ hm2)) hm

end EncryptionServiceUtils

namespace EncryptionServiceUtils

theorem updateEnvironmentLines_eq (L : List JStr) (k v : JStr) :
    updateEnvironmentLines L k v =
      (L.map fun line => if matchKey k line = true then k ++ '=' :: v else line) ++
        (if L.any (fun line => matchKey k line) = true then [] else [k ++ '=' :: v]) := by
  unfold updateEnvironmentLines
  simp only [matchKey]
  by_cases h : L.any (fun line => jsStartsWith line (k ++ ['='])) = true
  · rw [if_pos h, if_pos h, List.append_nil]
  · rw [if_neg h, if_neg h]

theorem updateEnvironmentLines_length (L : List JStr) (k v : JStr) :
    L.length ≤ (updateEnvironmentLines L k v).length := by
  rw [updateEnvironmentLines_eq, List.length_append, List.length_map]
  omega

/-- Sequential application of the updater over a list of (key, value) pairs —
the shape of the rewrite loop's effect on the line list. -/
def applyUpdates (L : List JStr) (encs : List (JStr × JStr)) : List JStr :=
  encs.foldl (fun acc kJ => updateEnvironmentLines acc kJ.1 kJ.2) L

theorem applyUpdates_nil (L : List JStr) : applyUpdates L [] = L := rfl

theorem applyUpdates_cons (L : List JStr) (kJ : JStr × JStr) (rest : List (JStr × JStr)) :
    applyUpdates L (kJ :: rest) = applyUpdates (updateEnvironmentLines L kJ.1 kJ.2) rest :=
  rfl

/-- The rewritten line list decomposes into the pointwise-updated original
lines followed by a block of appended `KEY=value` lines. -/
theorem applyUpdates_decomp (encs : List (JStr × JStr)) : ∀ L : List JStr,
    ∃ A : List JStr, applyUpdates L encs = (L.map fun line => lineFold line encs) ++ A ∧
      ∀ line ∈ A, ∃ kJ ∈ encs, line = kJ.1 ++ '=' :: kJ.2 := by
  induction encs with
  | nil =>
    intro L
    refine ⟨[], ?_, by simp⟩
    simp [applyUpdates, lineFold_nil]
  | cons kJ rest ih =>
    intro L
    obtain ⟨A', hA', hmemA'⟩ := ih (updateEnvironmentLines L kJ.1 kJ.2)
    rw [applyUpdates_cons, hA', updateEnvironmentLines_eq, List.map_append,
      List.map_map, List.append_assoc]
    refine ⟨(List.map (fun line => lineFold line rest)
      (if L.any (fun line => matchKey kJ.1 line) = true then [] else [kJ.1 ++ '=' :: kJ.2]))
        ++ A', ?_, ?_⟩
    · rfl
    · intro line hline
      rcases List.mem_append.mp hline with hm | hm
      · obtain ⟨src, hsrc, hfold⟩ := List.mem_map.mp hm
        have hsrc2 : src = kJ.1 ++ '=' :: kJ.2 := by
          split at hsrc
          · cases hsrc
          · simpa using hsrc
        rw [hsrc2] at hfold
        rcases lineFold_dichotomy (kJ.1 ++ '=' :: kJ.2) rest with h | ⟨kJ2, hm2, heq⟩
        · rw [h] at hfold
          exact ⟨kJ, List.mem_cons_self _ _, hfold.symm⟩
        · rw [heq] at hfold
          exact ⟨kJ2, List.mem_cons_of_mem _ hm2, hfold.symm⟩
      · obtain ⟨kJ2, hm2, heq⟩ := hmemA' line hm
        exact ⟨kJ2, List.mem_cons_of_mem _ hm2, heq⟩

theorem applyUpdates_length (L : List JStr) (encs : List (JStr × JStr)) :
    L.length ≤ (applyUpdates L encs).length := by
  obtain ⟨A, hA, _⟩ := applyUpdates_decomp encs L
  rw [hA, List.length_append, List.length_map]
  omega

theorem applyUpdates_getD (L : List JStr) (encs : List (JStr × JStr)) (i : Nat)
    (h : i < L.length) :
    (applyUpdates L encs).getD i [] = lineFold (L.getD i []) encs := by
  obtain ⟨A, hA, _⟩ := applyUpdates_decomp encs L
  rw [hA, List.getD_eq_getElem?_getD, List.getD_eq_getElem?_getD, List.getElem?_append,
    if_pos (by rw [List.length_map]; exact h), List.getElem?_map]
  have h2 : L[i]? = some (L.getD i []) := by
    rw [List.getD_eq_getElem?_getD, List.getElem?_eq_getElem h]
    rfl
  rw [h2]
  rfl

theorem applyUpdates_getD_high (L : List JStr) (encs : List (JStr × JStr)) (j : Nat)
    (h1 : L.length ≤ j) (h2 : j < (applyUpdates L encs).length) :
    ∃ kJ ∈ encs, (applyUpdates L encs).getD j [] = kJ.1 ++ '=' :: kJ.2 := by
  obtain ⟨A, hA, hmem⟩ := applyUpdates_decomp encs L
  rw [hA] at h2 ⊢
  rw [List.getD_eq_getElem?_getD, List.getElem?_append,
    if_neg (by rw [List.length_map]; omega)]
  rw [List.length_append, List.length_map] at h2
  rw [List.length_map]
  have hlt2 : j - L.length < A.length := by omega
  rw [List.getElem?_eq_getElem hlt2]
  obtain ⟨kJ, hkJ, heq⟩ := hmem (A[j - L.length]) (List.getElem_mem _)
  exact ⟨kJ, hkJ, by rw [Option.getD_some]; exact heq⟩

theorem updateEnvironmentLines_no_match {L : List JStr} {k : JStr}
    (h : ∀ line ∈ L, matchKey k line = false) (v : JStr) :
    updateEnvironmentLines L k v = L ++ [k ++ '=' :: v] := by
  rw [updateEnvironmentLines_eq]
  have hany : L.any (fun line => matchKey k line) = false := by
    rw [List.any_eq_false]
    intro line hline
    rw [h line hline]
    simp
  rw [hany]
  simp only [Bool.false_eq_true, if_false]
  congr 1
  have hmapeq : List.map (fun line => if matchKey k line = true then k ++ '=' :: v else line) L
      = List.map id L :=
    List.map_congr_left (fun line hl => if_neg (by rw [h line hl]; simp))
  rw [hmapeq, List.map_id]

/-- If no line of the file matches a newly encrypted key, its `KEY=value` line
is appended beyond the original lines (and survives the remaining updates). -/
theorem applyUpdates_appends {encs : List (JStr × JStr)} {k J : JStr} : ∀ {L : List JStr},
    (k, J) ∈ encs → (encs.map Prod.fst).Nodup → (∀ kJ ∈ encs, '=' ∉ kJ.1) →
    (∀ line ∈ L, matchKey k line = false) →
    ∃ j, L.length ≤ j ∧ j < (applyUpdates L encs).length ∧
      (applyUpdates L encs).getD j [] = k ++ '=' :: J := by
  induction encs with
  | nil => intro L h; cases h
  | cons kJ0 rest ih =>
    intro L hmem hnodup hW hnoline
    simp only [List.map_cons, List.nodup_cons] at hnodup
    rcases List.mem_cons.mp hmem with heq | hmem2
    · subst heq
      rw [applyUpdates_cons]
      rw [show (k, J).1 = k from rfl, show (k, J).2 = J from rfl]
      rw [updateEnvironmentLines_no_match hnoline]
      refine ⟨L.length, le_refl _, ?_, ?_⟩
      · calc L.length < (L ++ [k ++ '=' :: J]).length := by simp
          _ ≤ (applyUpdates (L ++ [k ++ '=' :: J]) rest).length := applyUpdates_length _ _
      · rw [applyUpdates_getD _ _ _ (by simp)]
        rw [show (L ++ [k ++ '=' :: J]).getD L.length [] = k ++ '=' :: J by
          rw [List.getD_eq_getElem?_getD, List.getElem?_append, if_neg (by omega)]
          simp]
        refine lineFold_id (fun kJ2 hm2 => ?_)
        refine matchKey_rewritten (hW (k, J) (List.mem_cons_self _ _))
          (hW kJ2 (List.mem_cons_of_mem _ hm2)) ?_
        intro he
        refine hnodup.1 ?_
        rw [show (k, J).1 = k from rfl, ← he]
        exact List.mem_map_of_mem Prod.fst hm2
    · have hk0ne : kJ0.1 ≠ k := by
        intro he
        refine hnodup.1 ?_
        rw [he]
        exact List.mem_map_of_mem Prod.fst hmem2
      rw [applyUpdates_cons]
      have hnoline2 : ∀ line ∈ updateEnvironmentLines L kJ0.1 kJ0.2,
          matchKey k line = false := by
        intro line hline
        rw [updateEnvironmentLines_eq] at hline
        rcases List.mem_append.mp hline with hm | hm
        · obtain ⟨src, hsrc, heq2⟩ := List.mem_map.mp hm
          by_cases hms : matchKey kJ0.1 src = true
          · rw [if_pos hms] at heq2
            rw [← heq2]
            exact matchKey_rewritten (hW kJ0 (List.mem_cons_self _ _))
              (hW (k, J) (List.mem_cons_of_mem _ hmem2)) (Ne.symm hk0ne)
          · rw [if_neg hms] at heq2
            rw [← heq2]
            exact hnoline src hsrc
        · split at hm
          · cases hm
          · simp only [List.mem_singleton] at hm
            rw [hm]
            exact matchKey_rewritten (hW kJ0 (List.mem_cons_self _ _))
              (hW (k, J) (List.mem_cons_of_mem _ hmem2)) (Ne.symm hk0ne)
      obtain ⟨j, hj1, hj2, hj3⟩ := ih hmem2 hnodup.2
        (fun kJ2 hm2 => hW kJ2 (List.mem_cons_of_mem _ hm2)) hnoline2
      exact ⟨j, le_trans (updateEnvironmentLines_length L kJ0.1 kJ0.2) hj1, hj2, hj3⟩

end EncryptionServiceUtils

/-- A successful `encrypt` always returns base64-encoded fields built from the
supplied salt/IV bytes and some ciphertext bytes. -/
theorem EncryptionService.encrypt_ok_shape {P : CryptoPrimitives} {v s : JStr}
    {saltB ivB : List Nat} {p : EncryptionParameters}
    (h : EncryptionService.encrypt P v s saltB ivB = .ok p) :
    ∃ ct : List Nat, p = ⟨b64encode saltB, b64encode ivB, b64encode ct⟩ := by
  simp only [EncryptionService.encrypt, bind, Except.bind, pure, Except.pure] at h
  cases hk : P.deriveKey s (b64encode saltB) with
  | error e => rw [hk] at h; simp at h
  | ok key =>
    rw [hk] at h
    dsimp only at h
    cases hae : P.aesGcmEncrypt key ivB (P.utf8Encode v) with
    | error e => rw [hae] at h; simp at h
    | ok ct =>
      rw [hae] at h
      dsimp only at h
      simp only [Except.ok.injEq] at h
      exact ⟨ct, h.symm⟩

namespace EncryptionServiceUtils

/-- Ghost companion of the rewrite loop: the `(key, serialized value)` pairs
it writes, in processing order, together with the final randomness counter. -/
def collectNewlyEncrypted (P : CryptoPrimitives) (rng : Nat → List Nat × List Nat)
    (secretKeyVariable : JStr) :
    List (JStr × JStr) → Nat → Except JsError (List (JStr × JStr) × Nat)
  | [], idx => .ok ([], idx)
  | (key, value) :: restVars, idx =>
    if value = [] then collectNewlyEncrypted P rng secretKeyVariable restVars idx
    else do
      let r ← encryptIfNeeded P rng idx (jsTrim value) secretKeyVariable
      match r.1 with
      | .unchanged s =>
        if s = [] ∨ s = value then
          collectNewlyEncrypted P rng secretKeyVariable restVars r.2
        else do
          let rest ← collectNewlyEncrypted P rng secretKeyVariable restVars r.2
          .ok ((key, jsonQuote s) :: rest.1, rest.2)
      | .fresh p => do
          let rest ← collectNewlyEncrypted P rng secretKeyVariable restVars r.2
          .ok ((key, jsonStringifyEncParams p) :: rest.1, rest.2)

/-- The rewrite loop is: collect the replacements, then apply them in order. -/
theorem process_eq_collect (P : CryptoPrimitives) (rng : Nat → List Nat × List Nat)
    (sk : JStr) : ∀ (entries : List (JStr × JStr)) (L : List JStr) (c idx : Nat),
    processVariablesForEncryption P rng sk entries L c idx =
      (collectNewlyEncrypted P rng sk entries idx).map
        (fun r => (applyUpdates L r.1, c + r.1.length, r.2)) := by
  intro entries
  induction entries with
  | nil =>
    intro L c idx
    simp [processVariablesForEncryption, collectNewlyEncrypted, applyUpdates_nil, Except.map]
  | cons kv rest ih =>
    intro L c idx
    obtain ⟨key, value⟩ := kv
    by_cases hv : value = []
    · simp only [processVariablesForEncryption, collectNewlyEncrypted, if_pos hv]
      exact ih L c idx
    · simp only [processVariablesForEncryption, collectNewlyEncrypted, if_neg hv,
        bind, Except.bind]
      cases he : encryptIfNeeded P rng idx (jsTrim value) sk with
      | error e => rfl
      | ok r =>
        dsimp only
        cases r.1 with
        | unchanged s =>
          dsimp only
          by_cases hskip : s = [] ∨ s = value
          · rw [if_pos hskip, if_pos hskip]
            exact ih L c r.2
          · rw [if_neg hskip, if_neg hskip]
            rw [ih (updateEnvironmentLines L key (jsonQuote s)) (c + 1) r.2]
            cases collectNewlyEncrypted P rng sk rest r.2 with
            | error e => rfl
            | ok res =>
              simp only [Except.map, applyUpdates_cons]
              rw [show applyUpdates (updateEnvironmentLines L key (jsonQuote s)) res.1 =
                applyUpdates L ((key, jsonQuote s) :: res.1) from rfl]
              simp only [List.length_cons, Except.ok.injEq, Prod.mk.injEq]
              refine ⟨trivial, ?_, trivial⟩
              omega
        | fresh p =>
          dsimp only
          rw [ih (updateEnvironmentLines L key (jsonStringifyEncParams p)) (c + 1) r.2]
          cases collectNewlyEncrypted P rng sk rest r.2 with
          | error e => rfl
          | ok res =>
            simp only [Except.map, applyUpdates_cons]
            simp only [List.length_cons, Except.ok.injEq, Prod.mk.injEq]
            refine ⟨trivial, ?_, trivial⟩
            omega

end EncryptionServiceUtils

namespace EncryptionServiceUtils

theorem collect_keys_sublist (P : CryptoPrimitives) (rng : Nat → List Nat × List Nat)
    (sk : JStr) : ∀ (entries : List (JStr × JStr)) (idx : Nat) (es : List (JStr × JStr))
    (idx' : Nat), collectNewlyEncrypted P rng sk entries idx = .ok (es, idx') →
    (es.map Prod.fst).Sublist (entries.map Prod.fst) := by
  intro entries
  induction entries with
  | nil =>
    intro idx es idx' h
    simp only [collectNewlyEncrypted, Except.ok.injEq, Prod.mk.injEq] at h
    rw [← h.1]
  | cons kv rest ih =>
    intro idx es idx' h
    obtain ⟨key, value⟩ := kv
    by_cases hv : value = []
    · rw [collectNewlyEncrypted, if_pos hv] at h
      exact (ih idx es idx' h).trans (by simp)
    · rw [collectNewlyEncrypted, if_neg hv] at h
      simp only [bind, Except.bind] at h
      cases he : encryptIfNeeded P rng idx (jsTrim value) sk with
      | error e => rw [he] at h; cases h
      | ok r =>
        rw [he] at h
        dsimp only at h
        cases hr : r.1 with
        | unchanged s =>
          rw [hr] at h
          dsimp only at h
          by_cases hskip : s = [] ∨ s = value
          · rw [if_pos hskip] at h
            exact (ih r.2 es idx' h).trans (by simp)
          · rw [if_neg hskip] at h
            cases hc : collectNewlyEncrypted P rng sk rest r.2 with
            | error e => rw [hc] at h; cases h
            | ok res =>
              rw [hc] at h
              dsimp only at h
              simp only [Except.ok.injEq, Prod.mk.injEq] at h
              rw [← h.1]
              simp only [List.map_cons]
              exact (ih r.2 res.1 res.2 (by rw [hc])).cons₂ key
        | fresh p =>
          rw [hr] at h
          dsimp only at h
          cases hc : collectNewlyEncrypted P rng sk rest r.2 with
          | error e => rw [hc] at h; cases h
          | ok res =>
            rw [hc] at h
            dsimp only at h
            simp only [Except.ok.injEq, Prod.mk.injEq] at h
            rw [← h.1]
            simp only [List.map_cons]
            exact (ih r.2 res.1 res.2 (by rw [hc])).cons₂ key

theorem collect_mem_facts (P : CryptoPrimitives) (rng : Nat → List Nat × List Nat)
    (sk : JStr) : ∀ (entries : List (JStr × JStr)) (idx : Nat) (es : List (JStr × JStr))
    (idx' : Nat), collectNewlyEncrypted P rng sk entries idx = .ok (es, idx') →
    (∀ kv ∈ entries, jsTrim kv.2 = kv.2) →
    ∀ kJ ∈ es, ∃ v, (kJ.1, v) ∈ entries ∧ v ≠ [] ∧ isAlreadyEncrypted v = false ∧
      ∃ a b d : List Nat,
        kJ.2 = jsonStringifyEncParams ⟨b64encode a, b64encode b, b64encode d⟩ := by
  intro entries
  induction entries with
  | nil =>
    intro idx es idx' h htrim kJ hkJ
    simp only [collectNewlyEncrypted, Except.ok.injEq, Prod.mk.injEq] at h
    rw [← h.1] at hkJ
    cases hkJ
  | cons kv rest ih =>
    intro idx es idx' h htrim kJ hkJ
    obtain ⟨key, value⟩ := kv
    by_cases hv : value = []
    · rw [collectNewlyEncrypted, if_pos hv] at h
      obtain ⟨v, hv1, hv2⟩ := ih idx es idx' h
        (fun kv2 hm => htrim kv2 (List.mem_cons_of_mem _ hm)) kJ hkJ
      exact ⟨v, List.mem_cons_of_mem _ hv1, hv2⟩
    · rw [collectNewlyEncrypted, if_neg hv] at h
      simp only [bind, Except.bind] at h
      cases he : encryptIfNeeded P rng idx (jsTrim value) sk with
      | error e => rw [he] at h; cases h
      | ok r =>
        rw [he] at h
        dsimp only at h
        have htv : jsTrim value = value := htrim (key, value) (List.mem_cons_self _ _)
        cases hr : r.1 with
        | unchanged s =>
          rw [hr] at h
          dsimp only at h
          have hs : s = value := by
            rw [encryptIfNeeded] at he
            split at he
            · simp only [Except.ok.injEq] at he
              rw [← he] at hr
              dsimp only at hr
              cases hr
              exact htv
            · simp only [bind, Except.bind] at he
              cases hE : EncryptionService.encrypt P (jsTrim value) sk
                  (rng idx).1 (rng idx).2 with
              | error e => rw [hE] at he; cases he
              | ok p =>
                rw [hE] at he
                dsimp only at he
                simp only [Except.ok.injEq] at he
                rw [← he] at hr
                cases hr
          rw [if_pos (Or.inr hs)] at h
          obtain ⟨v, hv1, hv2⟩ := ih r.2 es idx' h
            (fun kv2 hm => htrim kv2 (List.mem_cons_of_mem _ hm)) kJ hkJ
          exact ⟨v, List.mem_cons_of_mem _ hv1, hv2⟩
        | fresh p =>
          rw [hr] at h
          dsimp only at h
          cases hc : collectNewlyEncrypted P rng sk rest r.2 with
          | error e => rw [hc] at h; cases h
          | ok res =>
            rw [hc] at h
            dsimp only at h
            simp only [Except.ok.injEq, Prod.mk.injEq] at h
            rw [← h.1] at hkJ
            rcases List.mem_cons.mp hkJ with rfl | hm
            · refine ⟨value, List.mem_cons_self _ _, hv, ?_, ?_⟩
              · rw [encryptIfNeeded] at he
                split at he
                · rename_i halready
                  simp only [Except.ok.injEq] at he
                  rw [← he] at hr
                  cases hr
                · rename_i halready
                  rw [← htv]
                  simpa using halready
              · rw [encryptIfNeeded] at he
                split at he
                · simp only [Except.ok.injEq] at he
                  rw [← he] at hr
                  cases hr
                · simp only [bind, Except.bind] at he
                  cases hE : EncryptionService.encrypt P (jsTrim value) sk
                      (rng idx).1 (rng idx).2 with
                  | error e => rw [hE] at he; cases he
                  | ok p2 =>
                    rw [hE] at he
                    dsimp only at he
                    simp only [Except.ok.injEq] at he
                    rw [← he] at hr
                    dsimp only at hr
                    cases hr
                    obtain ⟨ct, hp⟩ := EncryptionService.encrypt_ok_shape hE
                    exact ⟨(rng idx).1, (rng idx).2, ct, by rw [hp]⟩
            · obtain ⟨v, hv1, hv2⟩ := ih r.2 res.1 res.2 (by rw [hc])
                (fun kv2 hm2 => htrim kv2 (List.mem_cons_of_mem _ hm2)) kJ hm
              exact ⟨v, List.mem_cons_of_mem _ hv1, hv2⟩

end EncryptionServiceUtils

namespace EncryptionServiceUtils

/-- An entry whose key got no replacement was skipped: its value is empty or
its (trimmed) value was judged already encrypted. -/
theorem collect_skipped (P : CryptoPrimitives) (rng : Nat → List Nat × List Nat)
    (sk : JStr) : ∀ (entries : List (JStr × JStr)) (idx : Nat) (es : List (JStr × JStr))
    (idx' : Nat) {k v : JStr}, collectNewlyEncrypted P rng sk entries idx = .ok (es, idx') →
    (k, v) ∈ entries → (∀ J, (k, J) ∉ es) →
    v = [] ∨ (isAlreadyEncrypted (jsTrim v) = true ∧ (jsTrim v = [] ∨ jsTrim v = v)) := by
  intro entries
  induction entries with
  | nil => intro idx es idx' k v h hmem; cases hmem
  | cons kv rest ih =>
    intro idx es idx' k v h hmem hnotin
    obtain ⟨key, value⟩ := kv
    by_cases hv : value = []
    · rw [collectNewlyEncrypted, if_pos hv] at h
      rcases List.mem_cons.mp hmem with heq | hm
      · cases heq
        exact Or.inl hv
      · exact ih idx es idx' h hm hnotin
    · rw [collectNewlyEncrypted, if_neg hv] at h
      simp only [bind, Except.bind] at h
      cases he : encryptIfNeeded P rng idx (jsTrim value) sk with
      | error e => rw [he] at h; cases h
      | ok r =>
        rw [he] at h
        dsimp only at h
        cases hr : r.1 with
        | unchanged s =>
          rw [hr] at h
          dsimp only at h
          by_cases hskip : s = [] ∨ s = value
          · rcases List.mem_cons.mp hmem with heq | hm
            · cases heq
              right
              rw [encryptIfNeeded] at he
              split at he
              · rename_i halready
                simp only [Except.ok.injEq] at he
                rw [← he] at hr
                dsimp only at hr
                cases hr
                refine ⟨by simpa using halready, ?_⟩
                rcases hskip with h1 | h1
                · exact Or.inl h1
                · exact Or.inr h1
              · simp only [bind, Except.bind] at he
                cases hE : EncryptionService.encrypt P (jsTrim v) sk
                    (rng idx).1 (rng idx).2 with
                | error e => rw [hE] at he; cases he
                | ok p =>
                  rw [hE] at he
                  dsimp only at he
                  simp only [Except.ok.injEq] at he
                  rw [← he] at hr
                  cases hr
            · rw [if_pos hskip] at h
              exact ih r.2 es idx' h hm hnotin
          · rw [if_neg hskip] at h
            cases hc : collectNewlyEncrypted P rng sk rest r.2 with
            | error e => rw [hc] at h; cases h
            | ok res =>
              rw [hc] at h
              dsimp only at h
              simp only [Except.ok.injEq, Prod.mk.injEq] at h
              rcases List.mem_cons.mp hmem with heq | hm
              · cases heq
                exact absurd (show (k, jsonQuote s) ∈ es by
                  rw [← h.1]
                  exact List.mem_cons_self _ _) (hnotin _)
              · refine ih r.2 res.1 res.2 (by rw [hc]) hm (fun J hJ => ?_)
                exact hnotin J (by rw [← h.1]; exact List.mem_cons_of_mem _ hJ)
        | fresh p =>
          rw [hr] at h
          dsimp only at h
          cases hc : collectNewlyEncrypted P rng sk rest r.2 with
          | error e => rw [hc] at h; cases h
          | ok res =>
            rw [hc] at h
            dsimp only at h
            simp only [Except.ok.injEq, Prod.mk.injEq] at h
            rcases List.mem_cons.mp hmem with heq | hm
            · cases heq
              exact absurd (show (k, jsonStringifyEncParams p) ∈ es by
                rw [← h.1]
                exact List.mem_cons_self _ _) (hnotin _)
            · refine ih r.2 res.1 res.2 (by rw [hc]) hm (fun J hJ => ?_)
              exact hnotin J (by rw [← h.1]; exact List.mem_cons_of_mem _ hJ)

/-- A targeted entry with a nonempty, not-already-encrypted value gets a
replacement (provided the run succeeded). -/
theorem collect_encrypts (P : CryptoPrimitives) (rng : Nat → List Nat × List Nat)
    (sk : JStr) : ∀ (entries : List (JStr × JStr)) (idx : Nat) (es : List (JStr × JStr))
    (idx' : Nat) {k v : JStr}, collectNewlyEncrypted P rng sk entries idx = .ok (es, idx') →
    (k, v) ∈ entries → v ≠ [] → isAlreadyEncrypted (jsTrim v) = false →
    ∃ J, (k, J) ∈ es := by
  intro entries
  induction entries with
  | nil => intro idx es idx' k v h hmem; cases hmem
  | cons kv rest ih =>
    intro idx es idx' k v h hmem hvne hnot
    obtain ⟨key, value⟩ := kv
    by_cases hv : value = []
    · rw [collectNewlyEncrypted, if_pos hv] at h
      rcases List.mem_cons.mp hmem with heq | hm
      · cases heq
        exact absurd hv hvne
      · exact ih idx es idx' h hm hvne hnot
    · rw [collectNewlyEncrypted, if_neg hv] at h
      simp only [bind, Except.bind] at h
      cases he : encryptIfNeeded P rng idx (jsTrim value) sk with
      | error e => rw [he] at h; cases h
      | ok r =>
        rw [he] at h
        dsimp only at h
        cases hr : r.1 with
        | unchanged s =>
          rw [hr] at h
          dsimp only at h
          rcases List.mem_cons.mp hmem with heq | hm
          · cases heq
            rw [encryptIfNeeded] at he
            split at he
            · rename_i halready
              rw [halready] at hnot
              cases hnot
            · simp only [bind, Except.bind] at he
              cases hE : EncryptionService.encrypt P (jsTrim v) sk
                  (rng idx).1 (rng idx).2 with
              | error e => rw [hE] at he; cases he
              | ok p =>
                rw [hE] at he
                dsimp only at he
                simp only [Except.ok.injEq] at he
                rw [← he] at hr
                cases hr
          · by_cases hskip : s = [] ∨ s = value
            · rw [if_pos hskip] at h
              exact ih r.2 es idx' h hm hvne hnot
            · rw [if_neg hskip] at h
              cases hc : collectNewlyEncrypted P rng sk rest r.2 with
              | error e => rw [hc] at h; cases h
              | ok res =>
                rw [hc] at h
                dsimp only at h
                simp only [Except.ok.injEq, Prod.mk.injEq] at h
                obtain ⟨J, hJ⟩ := ih r.2 res.1 res.2 (by rw [hc]) hm hvne hnot
                exact ⟨J, by rw [← h.1]; exact List.mem_cons_of_mem _ hJ⟩
        | fresh p =>
          rw [hr] at h
          dsimp only at h
          cases hc : collectNewlyEncrypted P rng sk rest r.2 with
          | error e => rw [hc] at h; cases h
          | ok res =>
            rw [hc] at h
            dsimp only at h
            simp only [Except.ok.injEq, Prod.mk.injEq] at h
            rcases List.mem_cons.mp hmem with heq | hm
            · cases heq
              exact ⟨jsonStringifyEncParams p, by rw [← h.1]; exact List.mem_cons_self _ _⟩
            · obtain ⟨J, hJ⟩ := ih r.2 res.1 res.2 (by rw [hc]) hm hvne hnot
              exact ⟨J, by rw [← h.1]; exact List.mem_cons_of_mem _ hJ⟩

/-- A run over entries that are all empty or already encrypted (and
trim-stable) collects nothing. -/
theorem collect_stable (P : CryptoPrimitives) (rng : Nat → List Nat × List Nat)
    (sk : JStr) : ∀ (entries : List (JStr × JStr)) (idx : Nat),
    (∀ kv ∈ entries, kv.2 = [] ∨
      (jsTrim kv.2 = kv.2 ∧ isAlreadyEncrypted kv.2 = true)) →
    collectNewlyEncrypted P rng sk entries idx = .ok ([], idx) := by
  intro entries
  induction entries with
  | nil => intro idx h; rfl
  | cons kv rest ih =>
    intro idx h
    obtain ⟨key, value⟩ := kv
    by_cases hv : value = []
    · rw [collectNewlyEncrypted, if_pos hv]
      exact ih idx (fun kv2 hm => h kv2 (List.mem_cons_of_mem _ hm))
    · rcases h (key, value) (List.mem_cons_self _ _) with h1 | h1
      · exact absurd h1 hv
      · rw [collectNewlyEncrypted, if_neg hv]
        simp only [bind, Except.bind]
        rw [encryptIfNeeded, if_pos (by rw [h1.1]; exact h1.2)]
        dsimp only
        rw [if_pos (Or.inr h1.1)]
        exact ih idx (fun kv2 hm => h kv2 (List.mem_cons_of_mem _ hm))

end EncryptionServiceUtils

namespace EncryptionServiceUtils

/-- In a record with pairwise-distinct keys, membership determines the read. -/
theorem recordGet_of_mem_nodup : ∀ {r : List (JStr × JStr)} {k v : JStr},
    (k, v) ∈ r → ((r.map Prod.fst).Nodup) → recordGet r k = some v := by
  intro r
  induction r with
  | nil => intro k v h; cases h
  | cons kv rest ih =>
    intro k v hm hnodup
    obtain ⟨k0, v0⟩ := kv
    simp only [List.map_cons, List.nodup_cons] at hnodup
    rcases List.mem_cons.mp hm with heq | hm2
    · cases heq
      simp [recordGet, List.find?]
    · have hne : k0 ≠ k := by
        intro e
        refine hnodup.1 ?_
        rw [e]
        exact List.mem_map_of_mem Prod.fst hm2
      rw [show recordGet ((k0, v0) :: rest) k = recordGet rest k by
        simp [recordGet, List.find?, hne]]
      exact ih hm2 hnodup.2

/-- Every member of `findEnvironmentVariable`'s result is a record entry. -/
theorem findEnvironmentVariable_mem {all : List (JStr × JStr)} {lookupValue : JStr}
    {x : JStr × JStr} (h : x ∈ findEnvironmentVariable all lookupValue) : x ∈ all := by
  unfold findEnvironmentVariable at h
  split at h
  · rename_i hget
    simp only [List.mem_singleton] at h
    subst h
    cases hg : recordGet all lookupValue with
    | none => rw [hg] at hget; simp at hget
    | some v =>
      simp only [Option.getD_some]
      unfold recordGet at hg
      cases hf : all.find? (fun kv => kv.1 = lookupValue) with
      | none => rw [hf] at hg; cases hg
      | some kv =>
        rw [hf] at hg
        simp only [Option.map_some', Option.some.injEq] at hg
        have hmem := List.mem_of_find?_eq_some hf
        have hkey : kv.1 = lookupValue := by
          have := List.find?_some hf
          simpa using this
        rw [← hg, ← hkey]
        exact hmem
  · cases hf : all.find? (fun kv => kv.2 = lookupValue) with
    | none => rw [hf] at h; cases h
    | some kv =>
      rw [hf] at h
      simp only [List.mem_singleton] at h
      subst h
      exact List.mem_of_find?_eq_some hf

/-- Every targeted entry is an entry of the extracted record. -/
theorem determine_mem {all : List (JStr × JStr)} {envVariables : Option (List JStr)}
    {x : JStr × JStr} (hnodup : (all.map Prod.fst).Nodup)
    (h : x ∈ (determineVariablesToEncrypt all envVariables).1) : x ∈ all := by
  unfold determineVariablesToEncrypt at h
  match envVariables with
  | none =>
    rw [recordAssign_nil_self hnodup] at h
    exact h
  | some lookups =>
    dsimp only at h
    split at h
    · rename_i hlen
      clear hlen
      suffices haux : ∀ acc : List (JStr × JStr) × List JStr,
          (∀ y ∈ acc.1, y ∈ all) →
          x ∈ (lookups.foldl
            (fun acc lookupValue =>
              (recordAssign acc.1 (findEnvironmentVariable all lookupValue),
                if jsObjectTruthy (findEnvironmentVariable all lookupValue) = false then
                  acc.2 ++ [lookupValue] else acc.2)) acc).1 → x ∈ all by
        exact haux ([], []) (by simp) h
      clear h
      induction lookups with
      | nil => intro acc hacc h; exact hacc x h
      | cons lv rest ih =>
        intro acc hacc h
        simp only [List.foldl_cons] at h
        refine ih (recordAssign acc.1 (findEnvironmentVariable all lv),
            if jsObjectTruthy (findEnvironmentVariable all lv) = false then
              acc.2 ++ [lv] else acc.2) (fun y hy => ?_) h
        rcases recordAssign_mem hy with h1 | h1
        · exact hacc y h1
        · exact findEnvironmentVariable_mem h1
    · rw [recordAssign_nil_self hnodup] at h
      exact h

/-- The targeted record has pairwise-distinct keys. -/
theorem determine_keys_nodup (all : List (JStr × JStr)) (envVariables : Option (List JStr))
    (hnodup : (all.map Prod.fst).Nodup) :
    (((determineVariablesToEncrypt all envVariables).1).map Prod.fst).Nodup := by
  unfold determineVariablesToEncrypt
  match envVariables with
  | none => rw [recordAssign_nil_self hnodup]; exact hnodup
  | some lookups =>
    dsimp only
    split
    · rename_i hlen
      clear hlen
      suffices haux : ∀ acc : List (JStr × JStr) × List JStr,
          ((acc.1.map Prod.fst).Nodup) →
          (((lookups.foldl
            (fun acc lookupValue =>
              (recordAssign acc.1 (findEnvironmentVariable all lookupValue),
                if jsObjectTruthy (findEnvironmentVariable all lookupValue) = false then
                  acc.2 ++ [lookupValue] else acc.2)) acc).1).map Prod.fst).Nodup by
        exact haux ([], []) (by simp)
      induction lookups with
      | nil => intro acc hacc; exact hacc
      | cons lv rest ih =>
        intro acc hacc
        simp only [List.foldl_cons]
        exact ih (recordAssign acc.1 (findEnvironmentVariable all lv),
            if jsObjectTruthy (findEnvironmentVariable all lv) = false then
              acc.2 ++ [lv] else acc.2) (recordAssign_keys_nodup hacc)
    · rw [recordAssign_nil_self hnodup]
      exact hnodup

end EncryptionServiceUtils

namespace EncryptionServiceUtils

/-- **C2.** If encrypting any targeted value fails during a config rewrite,
`encryptEnvVariables` propagates that error and performs no file write at all:
the file content it returns is byte-for-byte the input content (the single
write happens only after the whole processing loop has succeeded). -/
theorem C2_failure_aborts_rewrite (P : CryptoPrimitives)
    (rng : Nat → List Nat × List Nat) (content : JStr)
    (envVariables : Option (List JStr)) (sk : JStr) (e : JsError)
    (h : processVariablesForEncryption P rng sk
      (determineVariablesToEncrypt
        (extractEnvironmentVariables (splitOnChar '\n' content)) envVariables).1
      (splitOnChar '\n' content) 0 0 = .error e) :
    encryptEnvVariables P rng content envVariables sk = (.error e, content) := by
  have hcore : encryptEnvVariablesCore P rng (splitOnChar '\n' content) envVariables sk =
      .error e := by
    unfold encryptEnvVariablesCore
    simp only [bind, Except.bind]
    rw [h]
  simp only [encryptEnvVariables]
  rw [hcore]

end EncryptionServiceUtils

/-- Concrete primitives whose AES-GCM encryption always fails, to exercise the
fail-fast path (the remaining components are the concrete toy ones). -/
def failPrims : CryptoPrimitives where
  utf8Encode := toyUtf8Encode
  utf8DecodeLossy := toyUtf8Decode
  deriveKey := fun secret salt => .ok (toyUtf8Encode (secret ++ salt))
  aesGcmEncrypt := fun _k _iv _p => .error .encryptionFailed
  aesGcmDecrypt := fun _k _iv _c => .error .decryptionFailed
  utf8Encode_bytes := toyUtf8_bytes
  utf8_roundtrip := toyUtf8_roundtrip
  aes_roundtrip := by intro k iv p c h; cases h
  aes_enc_bytes := by intro k iv p c h; cases h
  aes_enc_ne_nil := by intro k iv p c h; cases h

/-- A deterministic randomness source: 16 salt bytes and 12 IV bytes per
encryption. -/
def fixedRng : Nat → List Nat × List Nat :=
  fun _ => (List.replicate 16 1, List.replicate 12 2)

/-- C2 witness: on the one-entry file `A=1`, under primitives whose AES-GCM
encryption fails, the rewrite returns the error and the content unchanged. -/
theorem C2_witness :
    EncryptionServiceUtils.encryptEnvVariables failPrims fixedRng ['A', '=', '1'] none
      ['k'] = (.error .encryptionFailed, ['A', '=', '1']) :=
  EncryptionServiceUtils.C2_failure_aborts_rewrite failPrims fixedRng ['A', '=', '1'] none
    ['k'] .encryptionFailed (by rfl)

namespace EncryptionServiceUtils

/-- **C5.** `isEncrypted` returns `true` exactly when the value is non-empty,
its trimmed form starts with `{` and ends with `}`, it parses as JSON, and the
parsed object has all three keys `salt`, `iv` and `cipherText` (field values
are not validated); and the check never escalates a parse failure: for any
input that does not parse as JSON it returns `false` (the model is a total
function, so no exception escapes). -/
theorem C5_isEncrypted_characterization (value : JStr) :
    (isAlreadyEncrypted value = true ↔
      value ≠ [] ∧ jsStartsWith (jsTrim value) ['{'] = true ∧
      jsEndsWithChar (jsTrim value) '}' = true ∧
      ∃ ms : List (JStr × Json), jsonParse value = some (Json.obj ms) ∧
        ms.any (fun m => m.1 = saltKey) = true ∧ ms.any (fun m => m.1 = ivKey) = true ∧
        ms.any (fun m => m.1 = cipherTextKey) = true) ∧
    (jsonParse value = none → isAlreadyEncrypted value = false) := by
  constructor
  · constructor
    · intro h
      rw [isAlreadyEncrypted] at h
      by_cases hv : value = []
      · rw [if_pos hv] at h; cases h
      · rw [if_neg hv] at h
        by_cases hb : jsStartsWith (jsTrim value) ['{'] = true ∧
            jsEndsWithChar (jsTrim value) '}' = true
        · rw [if_neg (not_not_intro hb)] at h
          cases hj : jsonParse value with
          | none => rw [hj] at h; cases h
          | some parsed =>
            rw [hj] at h
            dsimp only at h
            cases parsed with
            | obj ms =>
              simp only [hasEncryptionFields, jsTypeofObject, jsIsNotNull, jsInProp,
                Bool.true_and, Bool.and_eq_true] at h
              exact ⟨hv, hb.1, hb.2, ms, rfl, by tauto, by tauto, by tauto⟩
            | null => simp [hasEncryptionFields, jsTypeofObject, jsIsNotNull, jsInProp] at h
            | bool b => simp [hasEncryptionFields, jsTypeofObject, jsIsNotNull, jsInProp] at h
            | num lex => simp [hasEncryptionFields, jsTypeofObject, jsIsNotNull, jsInProp] at h
            | str s => simp [hasEncryptionFields, jsTypeofObject, jsIsNotNull, jsInProp] at h
            | arr els => simp [hasEncryptionFields, jsTypeofObject, jsIsNotNull, jsInProp] at h
        · rw [if_pos hb] at h
          cases h
    · rintro ⟨hv, h1, h2, ms, hj, ha1, ha2, ha3⟩
      rw [isAlreadyEncrypted, if_neg hv, if_neg (not_not_intro ⟨h1, h2⟩), hj]
      simp [hasEncryptionFields, jsTypeofObject, jsIsNotNull, jsInProp, ha1, ha2, ha3]
  · intro hp
    rw [isAlreadyEncrypted]
    by_cases hv : value = []
    · rw [if_pos hv]
    · rw [if_neg hv]
      by_cases hb : jsStartsWith (jsTrim value) ['{'] = true ∧
          jsEndsWithChar (jsTrim value) '}' = true
      · rw [if_neg (not_not_intro hb), hp]
      · rw [if_pos hb]

end EncryptionServiceUtils

namespace EncryptionServiceUtils

/-- **C7.** The `if (!found)` warning guard of `determineVariablesToEncrypt`
tests the object returned by `findEnvironmentVariable`, and a JS object —
the empty result object included — is always truthy, so the guard is dead
code: no lookup ever produces the promised warning (first conjunct). An
unmatched lookup is nonetheless skipped without aborting: on the file `A=1`,
the lookup list `[MISSING, A]` contributes nothing for `MISSING` yet still
selects `A` (second conjunct). -/
theorem C7_unmatched_lookup_warning_dead :
    (∀ (all : List (JStr × JStr)) (envVariables : Option (List JStr)),
      (determineVariablesToEncrypt all envVariables).2 = []) ∧
    determineVariablesToEncrypt [(['A'], ['1'])]
        (some [['M', 'I', 'S', 'S', 'I', 'N', 'G'], ['A']]) =
      ([(['A'], ['1'])], []) := by
  constructor
  · intro all envVariables
    unfold determineVariablesToEncrypt
    match envVariables with
    | none => rfl
    | some lookups =>
      dsimp only
      split
      · rename_i hlen
        clear hlen
        suffices haux : ∀ acc : List (JStr × JStr) × List JStr,
            (lookups.foldl
              (fun acc lookupValue =>
                (recordAssign acc.1 (findEnvironmentVariable all lookupValue),
                  if jsObjectTruthy (findEnvironmentVariable all lookupValue) = false then
                    acc.2 ++ [lookupValue] else acc.2)) acc).2 = acc.2 by
          exact haux ([], [])
        induction lookups with
        | nil => intro acc; rfl
        | cons lv rest ih =>
          intro acc
          simp only [List.foldl_cons]
          rw [ih (recordAssign acc.1 (findEnvironmentVariable all lv),
            if jsObjectTruthy (findEnvironmentVariable all lv) = false then
              acc.2 ++ [lv] else acc.2)]
          simp [jsObjectTruthy]
      · rfl
  · rfl

/-- **C10.** An empty lookup array is treated exactly like no lookup list at
all: `encryptEnvVariables` behaves identically, and the target set is the
whole extracted record (every entry of the file), not the empty set. -/
theorem C10_empty_lookup_selects_all (P : CryptoPrimitives)
    (rng : Nat → List Nat × List Nat) (content : JStr) (sk : JStr) :
    encryptEnvVariables P rng content (some []) sk =
      encryptEnvVariables P rng content none sk ∧
    ∀ lines : List JStr,
      (determineVariablesToEncrypt (extractEnvironmentVariables lines) (some [])).1 =
        extractEnvironmentVariables lines := by
  refine ⟨rfl, fun lines => ?_⟩
  show recordAssign [] (extractEnvironmentVariables lines) = _
  exact recordAssign_nil_self (extract_keys_nodup lines)

end EncryptionServiceUtils

/-- C6 counterexample: the secret-key generator has no positive-length guard —
called with length 0 it succeeds with the empty string instead of failing
before generation (`crypto.randomBytes(0)` succeeds with an empty buffer). -/
theorem C6_counterexample :
    SecureKeyGenerator.generateBase64SecretKey 0 [] = .ok [] := by rfl

/-- **C6 (amended).** The IV generators and the salt generator do fail with an
`InvalidParameter` error for every zero or negative length before any
generation attempt; the secret-key generator does not: for length 0 it
succeeds with the base64 of an empty buffer, and for negative lengths the
failure is a `RangeError` thrown inside `crypto.randomBytes`, not a
pre-generation parameter check. -/
theorem C6_nonpositive_length_guards (length : Int) (entropy : List Nat)
    (h : length ≤ 0) :
    SecureKeyGenerator.generateBase64IV length entropy = .error .invalidParameter ∧
    SecureKeyGenerator.generateBufferIV length entropy = .error .invalidParameter ∧
    SecureKeyGenerator.generateWebCryptoIV length entropy = .error .invalidParameter ∧
    SecureKeyGenerator.generateBase64Salt length entropy = .error .invalidParameter ∧
    SecureKeyGenerator.generateBase64SecretKey length entropy =
      (if length < 0 then .error .rangeError else .ok []) := by
  refine ⟨?_, ?_, ?_, ?_, ?_⟩
  · rw [SecureKeyGenerator.generateBase64IV, if_pos h]
  · rw [SecureKeyGenerator.generateBufferIV, if_pos h]
  · rw [SecureKeyGenerator.generateWebCryptoIV, if_pos h]
  · rw [SecureKeyGenerator.generateBase64Salt, if_pos h]
  · rw [SecureKeyGenerator.generateBase64SecretKey, SecureKeyGenerator.randomBytes]
    by_cases hneg : length < 0
    · rw [if_pos hneg, if_pos hneg]
      rfl
    · rw [if_neg hneg, if_neg hneg]
      have hz : length = 0 := le_antisymm h (not_lt.mp hneg)
      subst hz
      rfl

/-- C6 witness: the guards evaluated at length `-1`. -/
theorem C6_witness :
    (-1 : Int) ≤ 0 ∧
    (SecureKeyGenerator.generateBase64IV (-1) [] = .error .invalidParameter ∧
     SecureKeyGenerator.generateBufferIV (-1) [] = .error .invalidParameter ∧
     SecureKeyGenerator.generateWebCryptoIV (-1) [] = .error .invalidParameter ∧
     SecureKeyGenerator.generateBase64Salt (-1) [] = .error .invalidParameter ∧
     SecureKeyGenerator.generateBase64SecretKey (-1) [] =
       (if (-1 : Int) < 0 then .error .rangeError else .ok [])) :=
  ⟨by decide, C6_nonpositive_length_guards (-1) [] (by decide)⟩

namespace EnvironmentFileManager

/-- The line terminators of the JS regex grammar (`multiline` `^` matches
after any of these; `.` matches none of them). -/
def regexLineTerm (c : Char) : Bool :=
  decide (c.toNat = 0x0a ∨ c.toNat = 0x0d ∨ c.toNat = 0x2028 ∨ c.toNat = 0x2029)

/-- One match attempt of the dynamically built pattern body
`${keyName}=` at a fixed position. `keyName` is interpolated into the pattern
source verbatim, so its characters are regex *syntax*: this model covers
patterns made of literal characters and the `.` wildcard (any non-terminator
character); key names using other metacharacters are outside the model. -/
def patternMatchesAt : JStr → JStr → Bool
  | [], _ => true
  | _ :: _, [] => false
  | p :: ps, c :: cs =>
    (if p = '.' then !regexLineTerm c else p == c) && patternMatchesAt ps cs

/-- Match attempts of `^pat` at the positions following a line terminator. -/
def multilineTestAfter (pat : JStr) : JStr → Bool
  | [] => false
  | c :: cs => (regexLineTerm c && patternMatchesAt pat cs) || multilineTestAfter pat cs

/-- `new RegExp('^' + pat, 'm').test(content)`: `^` anchors at the start of
the string and immediately after every line terminator. -/
def multilineTest (pat content : JStr) : Bool :=
  patternMatchesAt pat content || multilineTestAfter pat content

/-- `EnvironmentFileManager.storeBaseEnvKey` on the secret-store file content:
if `new RegExp('^' + keyName + '=', 'm')` tests true, the content is kept
unchanged; otherwise `'\n' + keyName + '=' + keyValue` is appended and the
whole file written back. -/
def storeBaseEnvKey (content keyName keyValue : JStr) : JStr :=
  if multilineTest (keyName ++ ['=']) content = true then content
  else content ++ '\n' :: (keyName ++ '=' :: keyValue)

/-- Key characters the regex grammar treats as literals (ASCII alphanumerics
and underscore). -/
def regexSafeKeyChar (c : Char) : Bool := c.isAlphanum || c == '_'

/-- A wildcard-free pattern matches at a position exactly when it is a
literal prefix there. -/
theorem patternMatchesAt_literal {pat : JStr} (hd : ∀ c ∈ pat, c ≠ '.') :
    ∀ s : JStr, patternMatchesAt pat s = pat.isPrefixOf s := by
  induction pat with
  | nil => intro s; cases s <;> rfl
  | cons p ps ih =>
    intro s
    cases s with
    | nil => rfl
    | cons c cs =>
      show ((if p = '.' then !regexLineTerm c else p == c) && patternMatchesAt ps cs) = _
      rw [if_neg (hd p (List.mem_cons_self _ _))]
      rw [show (p :: ps).isPrefixOf (c :: cs) = (p == c && ps.isPrefixOf cs) from rfl]
      rw [ih (fun d hdm => hd d (List.mem_cons_of_mem _ hdm))]

/-- A newline-free pattern is a prefix of the string exactly when it is a
prefix of the string's first line. -/
theorem isPrefixOf_head_line (s : JStr) : ∀ {pat : JStr}, '\n' ∉ pat →
    ∀ {L0 : JStr} {Ls : List JStr}, splitOnChar '\n' s = L0 :: Ls →
    pat.isPrefixOf s = pat.isPrefixOf L0 := by
  induction s with
  | nil =>
    intro pat hnl L0 Ls hsp
    simp only [splitOnChar] at hsp
    injection hsp with h1 h2
    subst h1
    rfl
  | cons c cs ih =>
    intro pat hnl L0 Ls hsp
    by_cases hcn : c = '\n'
    · subst hcn
      rw [show splitOnChar '\n' ('\n' :: cs) = [] :: splitOnChar '\n' cs from by
        simp [splitOnChar]] at hsp
      injection hsp with h1 h2
      subst h1
      cases pat with
      | nil => rfl
      | cons p ps =>
        have hp : (p == '\n') = false := by
          rw [beq_eq_false_iff_ne]
          exact fun e => hnl (e ▸ List.mem_cons_self _ _)
        show (p == '\n' && List.isPrefixOf ps cs) = false
        rw [hp, Bool.false_and]
    · cases hsp2 : splitOnChar '\n' cs with
      | nil => exact absurd hsp2 (splitOnChar_ne_nil _ _)
      | cons M0 Ms =>
        rw [show splitOnChar '\n' (c :: cs) = (c :: M0) :: Ms from by
          simp [splitOnChar, hcn, hsp2]] at hsp
        injection hsp with h1 h2
        subst h1
        cases pat with
        | nil => rfl
        | cons p ps =>
          have hps : '\n' ∉ ps := fun h => hnl (List.mem_cons_of_mem _ h)
          show (p == c && List.isPrefixOf ps cs) = (p == c && List.isPrefixOf ps M0)
          rw [ih hps hsp2]

/-- The after-terminator match attempts test exactly the tail lines. -/
theorem multilineTestAfter_lines {pat : JStr} (hd : ∀ c ∈ pat, c ≠ '.')
    (hnl : '\n' ∉ pat) :
    ∀ s : JStr, (∀ c ∈ s, c = '\n' ∨ regexLineTerm c = false) →
    multilineTestAfter pat s =
      ((splitOnChar '\n' s).tail).any (fun l => pat.isPrefixOf l) := by
  intro s
  induction s with
  | nil => intro hc; rfl
  | cons c cs ih =>
    intro hc
    have hcs : ∀ d ∈ cs, d = '\n' ∨ regexLineTerm d = false :=
      fun d hdm => hc d (List.mem_cons_of_mem _ hdm)
    by_cases hcn : c = '\n'
    · subst hcn
      show ((regexLineTerm '\n' && patternMatchesAt pat cs) || multilineTestAfter pat cs) = _
      rw [show regexLineTerm '\n' = true from by decide, Bool.true_and]
      rw [patternMatchesAt_literal hd cs, ih hcs]
      rw [show splitOnChar '\n' ('\n' :: cs) = [] :: splitOnChar '\n' cs from by
        simp [splitOnChar]]
      cases hsp : splitOnChar '\n' cs with
      | nil => exact absurd hsp (splitOnChar_ne_nil _ _)
      | cons L0 Ls =>
        simp only [List.tail_cons, List.any_cons]
        rw [isPrefixOf_head_line cs hnl hsp]
    · have hterm : regexLineTerm c = false := by
        rcases hc c (List.mem_cons_self _ _) with h | h
        · exact absurd h hcn
        · exact h
      show ((regexLineTerm c && patternMatchesAt pat cs) || multilineTestAfter pat cs) = _
      rw [hterm, Bool.false_and, Bool.false_or, ih hcs]
      cases hsp : splitOnChar '\n' cs with
      | nil => exact absurd hsp (splitOnChar_ne_nil _ _)
      | cons M0 Ms =>
        rw [show splitOnChar '\n' (c :: cs) = (c :: M0) :: Ms from by
          simp [splitOnChar, hcn, hsp]]
        rfl

/-- For a literal pattern on `\n`-separated content, the multiline regex test
is exactly "some line starts with the pattern". -/
theorem multilineTest_lines {pat : JStr} (hd : ∀ c ∈ pat, c ≠ '.') (hnl : '\n' ∉ pat)
    (s : JStr) (hc : ∀ c ∈ s, c = '\n' ∨ regexLineTerm c = false) :
    multilineTest pat s = (splitOnChar '\n' s).any (fun l => pat.isPrefixOf l) := by
  rw [multilineTest, patternMatchesAt_literal hd, multilineTestAfter_lines hd hnl s hc]
  cases hsp : splitOnChar '\n' s with
  | nil => exact absurd hsp (splitOnChar_ne_nil _ _)
  | cons L0 Ls =>
    simp only [List.tail_cons, List.any_cons]
    rw [isPrefixOf_head_line s hnl hsp]

end EnvironmentFileManager

/-- C8 counterexample: with key name `A.B` on the file `AxB=1`, no line begins
with `A.B=`, yet the interpolated pattern's `.` matches `x`, the regex test
fires, and `storeBaseEnvKey` returns without appending the new entry. -/
theorem C8_counterexample :
    ((splitOnChar '\n' ['A', 'x', 'B', '=', '1']).any
      (fun l => jsStartsWith l (['A', '.', 'B'] ++ ['='])) = false) ∧
    EnvironmentFileManager.storeBaseEnvKey ['A', 'x', 'B', '=', '1'] ['A', '.', 'B']
      ['v'] = ['A', 'x', 'B', '=', '1'] := by
  constructor
  · decide
  · decide

/-- **C8 (amended).** For key names made of regex-literal characters (ASCII
alphanumerics and `_`) on content whose only line terminator is `\n`,
`storeBaseEnvKey` never overwrites: if some line already begins with
`keyName=` the content is returned unmodified, and otherwise the new content
is exactly the old content with `'\n' + keyName + '=' + value` appended. For
other key names the dynamically built regex can misjudge presence
(see the counterexample). -/
theorem C8_store_never_overwrites (content keyName keyValue : JStr)
    (hk : ∀ c ∈ keyName, EnvironmentFileManager.regexSafeKeyChar c = true)
    (hc : ∀ c ∈ content, c = '\n' ∨ EnvironmentFileManager.regexLineTerm c = false) :
    EnvironmentFileManager.storeBaseEnvKey content keyName keyValue =
      (if (splitOnChar '\n' content).any
          (fun l => jsStartsWith l (keyName ++ ['='])) = true then content
       else content ++ '\n' :: (keyName ++ '=' :: keyValue)) := by
  have hsafe : ∀ c : Char, EnvironmentFileManager.regexSafeKeyChar c = true →
      c ≠ '.' ∧ c ≠ '\n' := by
    intro c h
    constructor
    · intro e; subst e; exact absurd h (by decide)
    · intro e; subst e; exact absurd h (by decide)
  have hd : ∀ c ∈ keyName ++ ['='], c ≠ '.' := by
    intro c hm
    rcases List.mem_append.mp hm with h1 | h1
    · exact (hsafe c (hk c h1)).1
    · simp only [List.mem_singleton] at h1
      subst h1
      decide
  have hnl : '\n' ∉ keyName ++ ['='] := by
    intro hm
    rcases List.mem_append.mp hm with h1 | h1
    · exact absurd (hk '\n' h1) (by decide)
    · simp only [List.mem_singleton] at h1
      cases h1
  rw [EnvironmentFileManager.storeBaseEnvKey,
    EnvironmentFileManager.multilineTest_lines hd hnl content hc]
  simp only [jsStartsWith]

/-- C8 witness: storing key `C` on the one-line file `A=1` appends
`\nC=v` (evaluated through the amended theorem). -/
theorem C8_witness :
    EnvironmentFileManager.storeBaseEnvKey ['A', '=', '1'] ['C'] ['v'] =
      (if (splitOnChar '\n' ['A', '=', '1']).any
          (fun l => jsStartsWith l (['C'] ++ ['='])) = true then ['A', '=', '1']
       else ['A', '=', '1'] ++ '\n' :: (['C'] ++ '=' :: ['v'])) :=
  C8_store_never_overwrites ['A', '=', '1'] ['C'] ['v'] (by decide) (by decide)

namespace EncryptionServiceUtils

/-- Facts about an entry of the extracted record, with its source line. -/
theorem extract_entry_facts {lines : List JStr} {k v : JStr}
    (h : (k, v) ∈ extractEnvironmentVariables lines) :
    k ≠ [] ∧ v ≠ [] ∧ jsTrim k = k ∧ jsTrim v = v ∧ '=' ∉ k ∧
    (∀ c, k.head? = some c → jsWhitespaceChar c = false) ∧
    ∃ line ∈ lines, (∀ c ∈ k, c ∈ line) ∧ (∀ c ∈ v, c ∈ line) := by
  obtain ⟨line, hline, hp⟩ := extract_mem h
  obtain ⟨h1, h2, h3, h4, h5, h6, h7, h8⟩ := parseEnvironmentLine_facts hp
  exact ⟨h1, h2, h3, h4, h5, h6, line, hline, h7, h8⟩

/-- Decomposition of a successful `encryptEnvVariables` run: the collected
replacement list `es` exists; the output splits back into `applyUpdates` of
the input lines; the newly-encrypted count is `es.length`; the replacement
keys are pairwise distinct extracted keys (`=`-free, newline-free, headed by
non-whitespace) whose record values were nonempty, trim-stable and not yet
encrypted; and every replacement value is a serialized `{salt, iv,
cipherText}` object with base64 fields. -/
theorem run_decomp {P : CryptoPrimitives} {rng : Nat → List Nat × List Nat}
    {content : JStr} {envVariables : Option (List JStr)} {sk : JStr} {count : Nat}
    {out : JStr}
    (h : encryptEnvVariables P rng content envVariables sk = (.ok count, out)) :
    ∃ (es : List (JStr × JStr)) (fidx : Nat),
      collectNewlyEncrypted P rng sk
        (determineVariablesToEncrypt
          (extractEnvironmentVariables (splitOnChar '\n' content)) envVariables).1 0 =
        .ok (es, fidx) ∧
      splitOnChar '\n' out = applyUpdates (splitOnChar '\n' content) es ∧
      out ≠ [] ∧
      es.length = count ∧
      (es.map Prod.fst).Nodup ∧
      ∀ kJ ∈ es, '=' ∉ kJ.1 ∧ '\n' ∉ kJ.1 ∧
        (∀ c, kJ.1.head? = some c → jsWhitespaceChar c = false) ∧
        (∃ v, (kJ.1, v) ∈ extractEnvironmentVariables (splitOnChar '\n' content) ∧
          v ≠ [] ∧ jsTrim v = v ∧ isAlreadyEncrypted v = false) ∧
        ∃ a b d : List Nat,
          kJ.2 = jsonStringifyEncParams ⟨b64encode a, b64encode b, b64encode d⟩ := by
  have hLne : splitOnChar '\n' content ≠ [] := splitOnChar_ne_nil _ _
  have hextnodup := extract_keys_nodup (splitOnChar '\n' content)
  have htargetsnodup := determine_keys_nodup _ envVariables hextnodup
  have htrim : ∀ kv ∈ (determineVariablesToEncrypt
      (extractEnvironmentVariables (splitOnChar '\n' content)) envVariables).1,
      jsTrim kv.2 = kv.2 := by
    intro kv hkv
    obtain ⟨k2, v2⟩ := kv
    exact (extract_entry_facts (determine_mem hextnodup hkv)).2.2.2.1
  simp only [encryptEnvVariables] at h
  cases hcore : encryptEnvVariablesCore P rng (splitOnChar '\n' content) envVariables sk with
  | error e =>
    rw [hcore] at h
    dsimp only at h
    simp only [Prod.mk.injEq] at h
    cases h.1
  | ok uc =>
    obtain ⟨ul, cnt⟩ := uc
    rw [hcore] at h
    dsimp only at h
    by_cases hemp : joinWith '\n' ul = []
    · rw [if_pos hemp] at h
      simp only [Prod.mk.injEq] at h
      cases h.1
    · rw [if_neg hemp] at h
      simp only [Prod.mk.injEq, Except.ok.injEq] at h
      obtain ⟨hcnt, hout⟩ := h
      simp only [encryptEnvVariablesCore, bind, Except.bind] at hcore
      rw [process_eq_collect] at hcore
      cases hcol : collectNewlyEncrypted P rng sk (determineVariablesToEncrypt
          (extractEnvironmentVariables (splitOnChar '\n' content)) envVariables).1 0 with
      | error e =>
        rw [hcol] at hcore
        dsimp only [Except.map] at hcore
        cases hcore
      | ok esf =>
        obtain ⟨es, fidx⟩ := esf
        rw [hcol] at hcore
        dsimp only [Except.map] at hcore
        simp only [Except.ok.injEq, Prod.mk.injEq] at hcore
        obtain ⟨hul, hcnt2⟩ := hcore
        have hesfacts : ∀ kJ ∈ es, '=' ∉ kJ.1 ∧ '\n' ∉ kJ.1 ∧
            (∀ c, kJ.1.head? = some c → jsWhitespaceChar c = false) ∧
            (∃ v, (kJ.1, v) ∈ extractEnvironmentVariables (splitOnChar '\n' content) ∧
              v ≠ [] ∧ jsTrim v = v ∧ isAlreadyEncrypted v = false) ∧
            ∃ a b d : List Nat,
              kJ.2 = jsonStringifyEncParams ⟨b64encode a, b64encode b, b64encode d⟩ := by
          intro kJ hkJ
          obtain ⟨v, hvmem, hvne, hvnotenc, habd⟩ :=
            collect_mem_facts P rng sk _ 0 es fidx hcol htrim kJ hkJ
          have hx : (kJ.1, v) ∈ extractEnvironmentVariables (splitOnChar '\n' content) :=
            determine_mem hextnodup hvmem
          obtain ⟨hkne, hvne2, hktrim, hvtrim, hknoeq, hkhead, line, hline, hkchars, _⟩ :=
            extract_entry_facts hx
          refine ⟨hknoeq, ?_, hkhead, ⟨v, hx, hvne2, hvtrim, hvnotenc⟩, habd⟩
          intro hmem
          exact splitOnChar_not_mem line hline (hkchars '\n' hmem)
        have hesnodup : (es.map Prod.fst).Nodup :=
          (collect_keys_sublist P rng sk _ 0 es fidx hcol).nodup htargetsnodup
        have hform : ∀ kJ ∈ es, '\n' ∉ (kJ.1 ++ '=' :: kJ.2) := by
          intro kJ hkJ hmem
          obtain ⟨_, hknonl, _, _, a, b, d, hJ⟩ := hesfacts kJ hkJ
          rcases List.mem_append.mp hmem with hm | hm
          · exact hknonl hm
          · rcases List.mem_cons.mp hm with he | hm2
            · exact absurd he (by decide)
            · rw [hJ] at hm2
              exact jsonStringifyEncParams_b64_no_newline a b d hm2
        have hnonl : ∀ l ∈ applyUpdates (splitOnChar '\n' content) es, '\n' ∉ l := by
          obtain ⟨A, hA, hAmem⟩ := applyUpdates_decomp es (splitOnChar '\n' content)
          intro l hl
          rw [hA] at hl
          rcases List.mem_append.mp hl with hm | hm
          · obtain ⟨l0, hl0, hfold⟩ := List.mem_map.mp hm
            rcases lineFold_dichotomy l0 es with hid | ⟨kJ, hkJ, heq⟩
            · rw [← hfold, hid]
              exact splitOnChar_not_mem l0 hl0
            · rw [← hfold, heq]
              exact hform kJ hkJ
          · obtain ⟨kJ, hkJ, heq⟩ := hAmem l hm
            rw [heq]
            exact hform kJ hkJ
        have hulne : applyUpdates (splitOnChar '\n' content) es ≠ [] := by
          intro hnil
          have hlen := applyUpdates_length (splitOnChar '\n' content) es
          rw [hnil] at hlen
          simp only [List.length_nil, Nat.le_zero] at hlen
          exact hLne (List.eq_nil_of_length_eq_zero hlen)
        refine ⟨es, fidx, rfl, ?_, by rw [← hout]; exact hemp, by omega, hesnodup, hesfacts⟩
        rw [← hout, ← hul]
        exact splitOnChar_joinWith '\n' _ hulne hnonl

end EncryptionServiceUtils

namespace EncryptionServiceUtils

/-- **C4.** Frame of a successful rewrite: the file keeps at least its line
count; every original line position either still carries its line unchanged,
or its line's exact `KEY=` prefix matched a newly encrypted key and the
position now carries `KEY=<serialized JSON>`; every line beyond the original
count is an appended `KEY=<serialized JSON>` line; and the replacement pairs
are exactly `count` many, with keys drawn from the extracted entries whose
values were newly encrypted and values that are serialized
`{salt, iv, cipherText}` objects. -/
theorem C4_rewrite_frame (P : CryptoPrimitives) (rng : Nat → List Nat × List Nat)
    (content : JStr) (envVariables : Option (List JStr)) (sk : JStr) (count : Nat)
    (out : JStr)
    (h : encryptEnvVariables P rng content envVariables sk = (.ok count, out)) :
    ∃ encs : List (JStr × JStr),
      encs.length = count ∧
      (∀ kJ ∈ encs,
        (∃ v, (kJ.1, v) ∈ extractEnvironmentVariables (splitOnChar '\n' content) ∧
          v ≠ [] ∧ isAlreadyEncrypted v = false) ∧
        ∃ a b d : List Nat,
          kJ.2 = jsonStringifyEncParams ⟨b64encode a, b64encode b, b64encode d⟩) ∧
      (splitOnChar '\n' content).length ≤ (splitOnChar '\n' out).length ∧
      (∀ i, i < (splitOnChar '\n' content).length →
        (splitOnChar '\n' out).getD i [] = (splitOnChar '\n' content).getD i [] ∨
        ∃ kJ ∈ encs, matchKey kJ.1 ((splitOnChar '\n' content).getD i []) = true ∧
          (splitOnChar '\n' out).getD i [] = kJ.1 ++ '=' :: kJ.2) ∧
      (∀ j, (splitOnChar '\n' content).length ≤ j → j < (splitOnChar '\n' out).length →
        ∃ kJ ∈ encs, (splitOnChar '\n' out).getD j [] = kJ.1 ++ '=' :: kJ.2) := by
  obtain ⟨es, fidx, hcol, hlines, houtne, hlen, hnodup, hfacts⟩ := run_decomp h
  refine ⟨es, hlen, ?_, ?_, ?_, ?_⟩
  · intro kJ hkJ
    obtain ⟨_, _, _, ⟨v, hv1, hv2, _, hv4⟩, habd⟩ := hfacts kJ hkJ
    exact ⟨⟨v, hv1, hv2, hv4⟩, habd⟩
  · rw [hlines]
    exact applyUpdates_length _ _
  · intro i hi
    rw [hlines, applyUpdates_getD _ _ _ hi]
    by_cases hid : lineFold ((splitOnChar '\n' content).getD i []) es =
        (splitOnChar '\n' content).getD i []
    · exact Or.inl hid
    · obtain ⟨kJ, hkJ, hm⟩ := lineFold_changed hid
      refine Or.inr ⟨kJ, hkJ, hm, ?_⟩
      exact lineFold_replaces hkJ hnodup (fun kJ2 h2 => (hfacts kJ2 h2).1) hm
  · intro j hj1 hj2
    rw [hlines] at hj2 ⊢
    exact applyUpdates_getD_high _ _ _ hj1 hj2

end EncryptionServiceUtils

/-- The C4 witness file `A=1\n#c`. -/
def c4Content : JStr := ['A', '=', '1', '\n', '#', 'c']

/-- The written file of the C4 witness run. -/
def c4Out : JStr :=
  (EncryptionServiceUtils.encryptEnvVariables toyPrims fixedRng c4Content none ['k']).2

/-- C4 witness: the frame conclusion evaluated on the file `A=1\n#c` under the
concrete primitives (one entry newly encrypted, the comment line untouched). -/
theorem C4_witness :
    ∃ encs : List (JStr × JStr),
      encs.length = 1 ∧
      (∀ kJ ∈ encs,
        (∃ v, (kJ.1, v) ∈ EncryptionServiceUtils.extractEnvironmentVariables
            (splitOnChar '\n' c4Content) ∧
          v ≠ [] ∧ EncryptionServiceUtils.isAlreadyEncrypted v = false) ∧
        ∃ a b d : List Nat,
          kJ.2 = jsonStringifyEncParams ⟨b64encode a, b64encode b, b64encode d⟩) ∧
      (splitOnChar '\n' c4Content).length ≤ (splitOnChar '\n' c4Out).length ∧
      (∀ i, i < (splitOnChar '\n' c4Content).length →
        (splitOnChar '\n' c4Out).getD i [] = (splitOnChar '\n' c4Content).getD i [] ∨
        ∃ kJ ∈ encs, EncryptionServiceUtils.matchKey kJ.1
            ((splitOnChar '\n' c4Content).getD i []) = true ∧
          (splitOnChar '\n' c4Out).getD i [] = kJ.1 ++ '=' :: kJ.2) ∧
      (∀ j, (splitOnChar '\n' c4Content).length ≤ j →
          j < (splitOnChar '\n' c4Out).length →
        ∃ kJ ∈ encs, (splitOnChar '\n' c4Out).getD j [] = kJ.1 ++ '=' :: kJ.2) :=
  EncryptionServiceUtils.C4_rewrite_frame toyPrims fixedRng c4Content none ['k'] 1 c4Out
    (by rfl)

namespace EncryptionServiceUtils

/-- **C9.** A targeted entry whose source line carries leading whitespace is
not replaced in place: extraction trims the line, so the entry is selected and
newly encrypted, but replacement requires the exact `KEY=` prefix, which no
line carries — the whitespace-headed line itself survives byte-for-byte at its
position (it can match no targeted key, since extracted keys start with
non-whitespace), and a fresh `KEY=<serialized value>` line is appended beyond
the original lines, leaving the plaintext in the written file. -/
theorem C9_leading_whitespace_line_appends (P : CryptoPrimitives)
    (rng : Nat → List Nat × List Nat) (content : JStr)
    (envVariables : Option (List JStr)) (sk : JStr) (count : Nat) (out : JStr)
    (i : Nat) (w : Char) (k v : JStr)
    (h : encryptEnvVariables P rng content envVariables sk = (.ok count, out))
    (hi : i < (splitOnChar '\n' content).length)
    (hw : ((splitOnChar '\n' content).getD i []).head? = some w)
    (hws : jsWhitespaceChar w = true)
    (hparse : parseEnvironmentLine ((splitOnChar '\n' content).getD i []) = some (k, v))
    (htarget : (k, v) ∈ (determineVariablesToEncrypt
      (extractEnvironmentVariables (splitOnChar '\n' content)) envVariables).1)
    (hnotenc : isAlreadyEncrypted v = false)
    (hnoline : ∀ line ∈ splitOnChar '\n' content, matchKey k line = false) :
    (splitOnChar '\n' out).getD i [] = (splitOnChar '\n' content).getD i [] ∧
    ∃ j, (splitOnChar '\n' content).length ≤ j ∧ j < (splitOnChar '\n' out).length ∧
      ∃ J, (splitOnChar '\n' out).getD j [] = k ++ '=' :: J := by
  obtain ⟨es, fidx, hcol, hlines, houtne, hlen, hnodup, hfacts⟩ := run_decomp h
  obtain ⟨hkne, hvne, hktrim, hvtrim, _, _, _, _⟩ := parseEnvironmentLine_facts hparse
  constructor
  · rw [hlines, applyUpdates_getD _ _ _ hi]
    refine lineFold_id (fun kJ hkJ => ?_)
    exact matchKey_ws_head hw hws (hfacts kJ hkJ).2.2.1
  · obtain ⟨J, hJmem⟩ := collect_encrypts P rng sk _ 0 es fidx hcol htarget hvne
      (by rw [hvtrim]; exact hnotenc)
    obtain ⟨j, hj1, hj2, hj3⟩ := applyUpdates_appends hJmem hnodup
      (fun kJ hkJ => (hfacts kJ hkJ).1) hnoline
    rw [hlines]
    exact ⟨j, hj1, hj2, J, hj3⟩

end EncryptionServiceUtils

/-- The C9 witness file `  A=1` (leading whitespace before the key). -/
def c9Content : JStr := [' ', ' ', 'A', '=', '1']

/-- The written file of the C9 witness run. -/
def c9Out : JStr :=
  (EncryptionServiceUtils.encryptEnvVariables toyPrims fixedRng c9Content none ['k']).2

/-- C9 witness: on `  A=1` the whitespace-headed line survives unchanged at
index 0 and an `A=<serialized value>` line is appended. -/
theorem C9_witness :
    (splitOnChar '\n' c9Out).getD 0 [] = (splitOnChar '\n' c9Content).getD 0 [] ∧
    ∃ j, (splitOnChar '\n' c9Content).length ≤ j ∧ j < (splitOnChar '\n' c9Out).length ∧
      ∃ J, (splitOnChar '\n' c9Out).getD j [] = ['A'] ++ '=' :: J :=
  EncryptionServiceUtils.C9_leading_whitespace_line_appends toyPrims fixedRng c9Content
    none ['k'] 1 c9Out 0 ' ' ['A'] ['1'] (by rfl) (by decide) (by rfl) (by decide)
    (by rfl) (by decide) (by decide) (by decide)

namespace EncryptionServiceUtils

/-- With pairwise-distinct keys, a key determines its value. -/
theorem nodup_key_val_unique : ∀ {es : List (JStr × JStr)},
    ((es.map Prod.fst).Nodup) → ∀ {k J J2 : JStr}, (k, J) ∈ es → (k, J2) ∈ es →
    J = J2 := by
  intro es
  induction es with
  | nil => intro _ k J J2 h1; cases h1
  | cons kv rest ih =>
    intro hnodup k J J2 h1 h2
    simp only [List.map_cons, List.nodup_cons] at hnodup
    rcases List.mem_cons.mp h1 with he1 | hm1
    · rcases List.mem_cons.mp h2 with he2 | hm2
      · rw [← he1] at he2
        exact (Prod.mk.injEq _ _ _ _ ▸ he2).2.symm
      · exfalso
        refine hnodup.1 ?_
        rw [← he1]
        have h3 : (k, J2).1 ∈ rest.map Prod.fst := List.mem_map_of_mem Prod.fst hm2
        exact h3
    · rcases List.mem_cons.mp h2 with he2 | hm2
      · exfalso
        refine hnodup.1 ?_
        rw [← he2]
        have h3 : (k, J).1 ∈ rest.map Prod.fst := List.mem_map_of_mem Prod.fst hm1
        exact h3
      · exact ih hnodup.2 hm1 hm2

/-- A successful record read is a record membership. -/
theorem recordGet_mem {r : List (JStr × JStr)} {k v : JStr}
    (h : recordGet r k = some v) : (k, v) ∈ r := by
  unfold recordGet at h
  cases hf : r.find? (fun kv => kv.1 = k) with
  | none => rw [hf] at h; cases h
  | some kv =>
    rw [hf] at h
    simp only [Option.map_some', Option.some.injEq] at h
    have hkey : kv.1 = k := by simpa using List.find?_some hf
    have hmem := List.mem_of_find?_eq_some hf
    rw [← h, ← hkey]
    exact hmem

/-- A rewritten `KEY=<serialized value>` line parses back to exactly that
pair, for a key of the extracted record. -/
theorem parse_rewritten {lines : List JStr} {k v J : JStr}
    (hx : (k, v) ∈ extractEnvironmentVariables lines) (a b d : List Nat)
    (hJ : J = jsonStringifyEncParams ⟨b64encode a, b64encode b, b64encode d⟩) :
    parseEnvironmentLine (k ++ '=' :: J) = some (k, J) := by
  obtain ⟨hkne, _, hktrim, _, hknoeq, hkhead, _⟩ := extract_entry_facts hx
  subst hJ
  exact parseEnvironmentLine_keyval hkne hknoeq hktrim hkhead
    (jsonStringifyEncParams_ne_nil _) (jsonStringifyEncParams_trim _)
    (jsonStringifyEncParams_getLast_not_ws _)

/-- Pointwise-equal parse segments give equal filtered parse lists over a
mapped line list. -/
theorem filterMap_parse_map_filter_eq (f : JStr → JStr) (p : JStr × JStr → Bool) :
    ∀ L : List JStr,
    (∀ l ∈ L,
      (match parseEnvironmentLine (f l) with
       | some kv => if p kv = true then [kv] else []
       | none => ([] : List (JStr × JStr))) =
      (match parseEnvironmentLine l with
       | some kv => if p kv = true then [kv] else []
       | none => [])) →
    ((L.map f).filterMap parseEnvironmentLine).filter p =
      (L.filterMap parseEnvironmentLine).filter p := by
  intro L
  induction L with
  | nil => intro _; rfl
  | cons l0 rest ih =>
    intro hpoint
    have hp0 := hpoint l0 (List.mem_cons_self _ _)
    have ihr := ih (fun l hl => hpoint l (List.mem_cons_of_mem _ hl))
    simp only [List.map_cons, List.filterMap_cons]
    cases hA : parseEnvironmentLine (f l0) with
    | none =>
      dsimp only
      cases hB : parseEnvironmentLine l0 with
      | none => exact ihr
      | some kv =>
        rw [hA, hB] at hp0
        dsimp only at hp0 ⊢
        by_cases hpkv : p kv = true
        · rw [if_pos hpkv] at hp0
          cases hp0
        · rw [List.filter_cons, if_neg hpkv]
          exact ihr
    | some kvA =>
      dsimp only
      cases hB : parseEnvironmentLine l0 with
      | none =>
        rw [hA, hB] at hp0
        dsimp only at hp0 ⊢
        by_cases hpkv : p kvA = true
        · rw [if_pos hpkv] at hp0
          cases hp0
        · rw [List.filter_cons, if_neg hpkv]
          exact ihr
      | some kvB =>
        rw [hA, hB] at hp0
        dsimp only at hp0 ⊢
        by_cases hpa : p kvA = true
        · rw [if_pos hpa] at hp0
          by_cases hpb : p kvB = true
          · rw [if_pos hpb] at hp0
            simp only [List.cons.injEq] at hp0
            rw [List.filter_cons, if_pos hpa, List.filter_cons, if_pos hpb, hp0.1, ihr]
          · rw [if_neg hpb] at hp0
            cases hp0
        · rw [if_neg hpa] at hp0
          by_cases hpb : p kvB = true
          · rw [if_pos hpb] at hp0
            cases hp0
          · rw [List.filter_cons, if_neg hpa, List.filter_cons, if_neg hpb]
            exact ihr

end EncryptionServiceUtils

namespace EncryptionServiceUtils

/-- **C3 (amended).** For a full-target rewrite (no explicit lookup list) of a
file whose entry lines carry their key as an exact `KEY=` prefix (no leading
whitespace before the key), a successful first run is a fixed point: an
immediate second run — under any primitives and randomness — returns the file
byte-for-byte unchanged with a newly-encrypted count of zero, because every
record value of the rewritten file is a serialized `{salt, iv, cipherText}`
object and is judged already encrypted. Without the exact-prefix condition
the property fails (see the counterexample). -/
theorem C3_second_run_idempotent (P : CryptoPrimitives)
    (rng : Nat → List Nat × List Nat) (content : JStr) (sk : JStr) (count : Nat)
    (out1 : JStr)
    (hgood : ∀ line ∈ splitOnChar '\n' content,
      (match parseEnvironmentLine line with
       | some kv => matchKey kv.1 line
       | none => true) = true)
    (h : encryptEnvVariables P rng content none sk = (.ok count, out1)) :
    ∀ (Q : CryptoPrimitives) (rng' : Nat → List Nat × List Nat),
      encryptEnvVariables Q rng' out1 none sk = (.ok 0, out1) := by
  intro Q rng'
  obtain ⟨es, fidx, hcol, hlines, houtne, hlen, hnodup, hfacts⟩ := run_decomp h
  have hW : ∀ kJ ∈ es, '=' ∉ kJ.1 := fun kJ hkJ => (hfacts kJ hkJ).1
  have hgood' : ∀ line ∈ splitOnChar '\n' content, ∀ k2 v2,
      parseEnvironmentLine line = some (k2, v2) → matchKey k2 line = true := by
    intro line hl k2 v2 hp
    have hg := hgood line hl
    rw [hp] at hg
    exact hg
  have hentries1 : (determineVariablesToEncrypt
      (extractEnvironmentVariables (splitOnChar '\n' content)) none).1 =
      extractEnvironmentVariables (splitOnChar '\n' content) := by
    show recordAssign [] _ = _
    exact recordAssign_nil_self (extract_keys_nodup _)
  have hformparse : ∀ kk JJ, (kk, JJ) ∈ es →
      parseEnvironmentLine (kk ++ '=' :: JJ) = some (kk, JJ) := by
    intro kk JJ hkJ
    obtain ⟨_, _, _, ⟨v2, hv2, _⟩, a2, b2, d2, hJ2⟩ := hfacts (kk, JJ) hkJ
    have hJ2b : JJ = jsonStringifyEncParams
        ⟨b64encode a2, b64encode b2, b64encode d2⟩ := hJ2
    exact parse_rewritten hv2 a2 b2 d2 hJ2b
  obtain ⟨A, hA, hAmem⟩ := applyUpdates_decomp es (splitOnChar '\n' content)
  have hstable : ∀ kv ∈ extractEnvironmentVariables (splitOnChar '\n' out1),
      kv.2 = [] ∨ (jsTrim kv.2 = kv.2 ∧ isAlreadyEncrypted kv.2 = true) := by
    intro kv hkv
    obtain ⟨k', v'⟩ := kv
    right
    obtain ⟨_, hv'ne, _, hv'trim, _, _, _⟩ := extract_entry_facts hkv
    refine ⟨hv'trim, ?_⟩
    by_cases hk'es : ∃ J, (k', J) ∈ es
    · obtain ⟨J, hJmem⟩ := hk'es
      obtain ⟨_, _, _, _, a, b, d, hJform⟩ := hfacts (k', J) hJmem
      have hJform2 : J = jsonStringifyEncParams
          ⟨b64encode a, b64encode b, b64encode d⟩ := hJform
      have hv'J : v' = J := by
        obtain ⟨line, hline, hparse2⟩ := extract_mem hkv
        rw [hlines, hA] at hline
        rcases List.mem_append.mp hline with hm | hm
        · obtain ⟨l0, hl0, hfold⟩ := List.mem_map.mp hm
          rcases lineFold_dichotomy l0 es with hid | ⟨⟨kk, JJ⟩, hkJ, heq⟩
          · rw [← hfold, hid] at hparse2
            have hm0 : matchKey k' l0 = true := hgood' l0 hl0 k' v' hparse2
            have hrep := lineFold_replaces hJmem hnodup hW hm0
            rw [hid] at hrep
            rw [hrep, hformparse k' J hJmem] at hparse2
            simp only [Option.some.injEq, Prod.mk.injEq] at hparse2
            exact hparse2.2.symm
          · rw [← hfold, heq, hformparse kk JJ hkJ] at hparse2
            simp only [Option.some.injEq, Prod.mk.injEq] at hparse2
            obtain ⟨h1, h2⟩ := hparse2
            subst h1
            subst h2
            exact nodup_key_val_unique hnodup hkJ hJmem
        · obtain ⟨⟨kk, JJ⟩, hkJ, heq⟩ := hAmem line hm
          rw [heq, hformparse kk JJ hkJ] at hparse2
          simp only [Option.some.injEq, Prod.mk.injEq] at hparse2
          obtain ⟨h1, h2⟩ := hparse2
          subst h1
          subst h2
          exact nodup_key_val_unique hnodup hkJ hJmem
      rw [hv'J, hJform2]
      exact isAlreadyEncrypted_stringify _ (b64encode_safe a) (b64encode_safe b)
        (b64encode_safe d)
    · push_neg at hk'es
      have hpoint : ∀ l ∈ splitOnChar '\n' content,
          (match parseEnvironmentLine (lineFold l es) with
           | some kv2 => if (fun kv3 : JStr × JStr => decide (kv3.1 = k')) kv2 = true then [kv2] else []
           | none => ([] : List (JStr × JStr))) =
          (match parseEnvironmentLine l with
           | some kv2 => if (fun kv3 : JStr × JStr => decide (kv3.1 = k')) kv2 = true then [kv2] else []
           | none => []) := by
        intro l0 hl0
        by_cases hch : lineFold l0 es = l0
        · rw [hch]
        · obtain ⟨kJm, hkJm, hmm0⟩ := lineFold_changed hch
          rcases lineFold_dichotomy l0 es with hid | ⟨⟨kk, JJ⟩, hkJ, heq⟩
          · exact absurd hid hch
          · rw [heq, hformparse kk JJ hkJ]
            have hkkne : kk ≠ k' := fun e => hk'es JJ (e ▸ hkJ)
            dsimp only
            cases hB : parseEnvironmentLine l0 with
            | none =>
              rw [if_neg (by simpa using hkkne)]
            | some kv2 =>
              obtain ⟨k2, v2⟩ := kv2
              have hm2 : matchKey k2 l0 = true := hgood' l0 hl0 k2 v2 hB
              have hk2noeq : '=' ∉ k2 := (parseEnvironmentLine_facts hB).2.2.2.2.1
              have hk2eq : kJm.1 = k2 := key_prefix_unique (hW kJm hkJm) hk2noeq hmm0 hm2
              have hk2ne : k2 ≠ k' := by
                intro e
                refine hk'es kJm.2 ?_
                have h0 : (kJm.1, kJm.2) ∈ es := hkJm
                rw [hk2eq, e] at h0
                exact h0
              dsimp only
              rw [if_neg (by simpa using hkkne), if_neg (by simpa using hk2ne)]
      have hfiltereq := filterMap_parse_map_filter_eq (fun l => lineFold l es)
        (fun kv3 => decide (kv3.1 = k')) (splitOnChar '\n' content) hpoint
      have hAfilter : ((A.filterMap parseEnvironmentLine).filter
          (fun kv3 => decide (kv3.1 = k'))) = [] := by
        rw [List.filter_eq_nil_iff]
        intro kv2 hkv2
        obtain ⟨line, hline, hparse2⟩ := List.mem_filterMap.mp hkv2
        obtain ⟨⟨kk, JJ⟩, hkJ, heq⟩ := hAmem line hline
        rw [heq, hformparse kk JJ hkJ] at hparse2
        simp only [Option.some.injEq] at hparse2
        subst hparse2
        simp only [decide_eq_true_eq]
        exact fun e => hk'es JJ (e ▸ hkJ)
      have hfilter : ((parsedPairs (splitOnChar '\n' out1)).filter
          (fun kv3 => decide (kv3.1 = k'))) =
          ((parsedPairs (splitOnChar '\n' content)).filter
            (fun kv3 => decide (kv3.1 = k'))) := by
        rw [hlines, hA]
        simp only [parsedPairs, List.filterMap_append, List.filter_append]
        rw [hfiltereq, hAfilter, List.append_nil]
      have hget1 : recordGet (extractEnvironmentVariables (splitOnChar '\n' out1)) k' =
          some v' := recordGet_of_mem_nodup hkv (extract_keys_nodup _)
      have hget2 : recordGet (extractEnvironmentVariables (splitOnChar '\n' content)) k' =
          some v' := by
        rw [extract_recordGet] at hget1 ⊢
        rw [← hfilter]
        exact hget1
      have hmem1 : (k', v') ∈ extractEnvironmentVariables (splitOnChar '\n' content) :=
        recordGet_mem hget2
      rcases collect_skipped P rng sk _ 0 es fidx hcol
          (by rw [hentries1]; exact hmem1) hk'es with hnil | ⟨henc, _⟩
      · exact absurd hnil (extract_entry_facts hmem1).2.1
      · rw [hv'trim] at henc
        exact henc
  have hcol2 : collectNewlyEncrypted Q rng' sk
      (extractEnvironmentVariables (splitOnChar '\n' out1)) 0 = .ok ([], 0) :=
    collect_stable Q rng' sk _ 0 hstable
  have hentries2 : (determineVariablesToEncrypt
      (extractEnvironmentVariables (splitOnChar '\n' out1)) none).1 =
      extractEnvironmentVariables (splitOnChar '\n' out1) := by
    show recordAssign [] _ = _
    exact recordAssign_nil_self (extract_keys_nodup _)
  have hcore2 : encryptEnvVariablesCore Q rng' (splitOnChar '\n' out1) none sk =
      .ok (splitOnChar '\n' out1, 0) := by
    simp only [encryptEnvVariablesCore, bind, Except.bind]
    rw [process_eq_collect, hentries2, hcol2]
    rfl
  simp only [encryptEnvVariables]
  rw [hcore2]
  dsimp only
  rw [joinWith_splitOnChar]
  rw [if_neg houtne]

end EncryptionServiceUtils

/-- The C3 counterexample file `k=v1\n  k=v2` (a shadowed duplicate entry with
leading whitespace). -/
def c3Content : JStr := ['k', '=', 'v', '1', '\n', ' ', ' ', 'k', '=', 'v', '2']

/-- The file written by the first C3 counterexample run. -/
def c3Out1 : JStr :=
  (EncryptionServiceUtils.encryptEnvVariables toyPrims fixedRng c3Content none ['s']).2

/-- C3 counterexample: on `k=v1\n  k=v2` the first run newly encrypts one
variable, and the immediate second run over its output again newly encrypts
one variable — not zero: the record value comes from the whitespace-headed
line `  k=v2`, which the first run leaves in plaintext. -/
theorem C3_counterexample :
    (EncryptionServiceUtils.encryptEnvVariables toyPrims fixedRng c3Content none
      ['s']).1 = .ok 1 ∧
    (EncryptionServiceUtils.encryptEnvVariables toyPrims fixedRng c3Out1 none
      ['s']).1 = .ok 1 :=
  ⟨rfl, rfl⟩

/-- The file written by the C3 witness's first run (on `A=1`). -/
def c3wOut : JStr :=
  (EncryptionServiceUtils.encryptEnvVariables toyPrims fixedRng ['A', '=', '1'] none
    ['s']).2

/-- C3 witness: on the well-formed file `A=1` the second run (same primitives
and randomness source) reports zero newly encrypted variables and returns the
file unchanged. -/
theorem C3_witness :
    EncryptionServiceUtils.encryptEnvVariables toyPrims fixedRng c3wOut none ['s'] =
      (.ok 0, c3wOut) :=
  EncryptionServiceUtils.C3_second_run_idempotent toyPrims fixedRng ['A', '=', '1'] ['s']
    1 c3wOut (by decide) (by rfl) toyPrims fixedRng
